import Mathlib

/-! LRU cache (`lrucache.go`): shallow embedding and verified properties.

The Go program keeps a `map[string]*list.Element` (the index) next to a
`container/list` doubly linked list (the recency list) whose elements carry
`*CacheItem` values.  The embedding keeps that pointer structure explicit:

* `heap` is the memory holding every `CacheItem` ever allocated; the address
  of an element is its position in `heap` (allocation appends, nothing is freed
  by hand, as under a garbage collector);
* `list` is the recency list as the sequence of element addresses, front first;
* `cache` is the Go map as an association list from key to element address.

Go's `int` is modelled by `Int` (capacity may be negative, as in the source).
`Get` increments the counters in exact integer arithmetic; `Get64` is `Get`
with `c.hits++` and `c.misses++` computed in the 64-bit `int`, where
`2^63 - 1` wraps to `-2^63`.  The two agree on every state whose counters are
below `2^63 - 1`, so on every state reached from a new cache by fewer than
`2^63 - 1` calls.
Go's `interface{}` value is modelled by `Option V`: `none` is `nil`.
The locks are not modelled: operations are run one after the other.
-/

namespace LRU

variable {V : Type}

/-! ## Data model -/

/-- Go `CacheItem`: a key and the value stored for it. -/
structure CacheItem (V : Type) where
  Key : String
  Value : Option V
deriving DecidableEq

/-- Go `LRUCache` (the mutex left out) together with the memory `heap` its
element pointers refer to. -/
structure LRUCache (V : Type) where
  capacity : Int
  cache : List (String × Nat)
  list : List Nat
  hits : Int
  misses : Int
  heap : List (CacheItem V)
deriving DecidableEq

/-! ## Go map primitives on the association list -/

/-- Go `m[key]` with the comma-ok form: the element address stored for `key`. -/
def mapLookup (m : List (String × Nat)) (key : String) : Option Nat :=
  match m with
  | [] => none
  | (k, p) :: rest => if k = key then some p else mapLookup rest key

/-- Go `delete(m, key)`. -/
def mapDelete (m : List (String × Nat)) (key : String) : List (String × Nat) :=
  m.filter (fun kp => decide (kp.1 ≠ key))

/-- Go `m[key] = p`. -/
def mapStore (m : List (String × Nat)) (key : String) (p : Nat) : List (String × Nat) :=
  (key, p) :: mapDelete m key

/-! ## `container/list` primitives on the sequence of addresses -/

/-- Go `l.Len()`. -/
def Len (l : List Nat) : Nat := l.length

/-- Go `l.Back()`: the last element, `nil` on the empty list. -/
def Back (l : List Nat) : Option Nat := l.getLast?

/-- Go `l.MoveToFront(e)`: nothing happens when `e` is not an element of `l`
or already is the front; otherwise `e` is unlinked and linked in at the front. -/
def MoveToFront (l : List Nat) (e : Nat) : List Nat :=
  if e ∉ l ∨ l.head? = some e then l else e :: l.erase e

/-- Go `l.Remove(e)`: unlinks `e` when it is an element of `l`. -/
def Remove (l : List Nat) (e : Nat) : List Nat := l.erase e

/-- Go `l.PushFront(v)` on the address list. -/
def PushFront (l : List Nat) (e : Nat) : List Nat := e :: l

/-! ## Memory -/

/-- Dereference `element.Value.(*CacheItem)`. -/
def deref (heap : List (CacheItem V)) (e : Nat) : Option (CacheItem V) := heap[e]?

/-- The expression `element.Value.(*CacheItem).Value`. -/
def elemValue (heap : List (CacheItem V)) (e : Nat) : Option V :=
  match deref heap e with
  | some item => item.Value
  | none => none

/-- The assignment `element.Value.(*CacheItem).Value = value`. -/
def setElemValue (heap : List (CacheItem V)) (e : Nat) (value : Option V) :
    List (CacheItem V) :=
  match deref heap e with
  | some item => heap.set e { item with Value := value }
  | none => heap

/-! ## The operations of `lrucache.go` -/

/-- Go `NewLRUCache`. -/
def NewLRUCache (capacity : Int) : LRUCache V :=
  { capacity := capacity, cache := [], list := [], hits := 0, misses := 0, heap := [] }

/-- Go `(*LRUCache).Get`: the pair `(value, found)` and the state afterwards. -/
def Get (c : LRUCache V) (key : String) : (Option V × Bool) × LRUCache V :=
  match mapLookup c.cache key with
  | some element =>
      ((elemValue c.heap element, true),
        { c with list := MoveToFront c.list element, hits := c.hits + 1 })
  | none => ((none, false), { c with misses := c.misses + 1 })

/-- The eviction block of `Put`: when `c.list.Len() >= c.capacity` and the list
has a back element, that element's key leaves the map and the element leaves
the list. -/
def evict (c : LRUCache V) : LRUCache V :=
  if (Len c.list : Int) ≥ c.capacity then
    match Back c.list with
    | some back =>
        match deref c.heap back with
        | some evictedItem =>
            { c with cache := mapDelete c.cache evictedItem.Key, list := Remove c.list back }
        | none => { c with list := Remove c.list back }
    | none => c
  else c

/-- Go `(*LRUCache).Put`. -/
def Put (c : LRUCache V) (key : String) (value : Option V) : LRUCache V :=
  if c.capacity = 0 then c
  else
    match mapLookup c.cache key with
    | some element =>
        { c with list := MoveToFront c.list element,
                 heap := setElemValue c.heap element value }
    | none =>
        let c1 := evict c
        let element := c1.heap.length
        { c1 with heap := c1.heap ++ [{ Key := key, Value := value }],
                  list := PushFront c1.list element,
                  cache := mapStore c1.cache key element }

/-- Go `(*LRUCache).GetHitMissCount`: the pair `(hits, misses)` and the state
afterwards. -/
def GetHitMissCount (c : LRUCache V) : (Int × Int) × LRUCache V :=
  ((c.hits, c.misses), c)

/-! ## Call sequences -/

/-- A call made by a client of the cache. -/
inductive Op (V : Type) where
  | get (key : String)
  | put (key : String) (value : Option V)
deriving DecidableEq

/-- The state after one call. -/
def step (c : LRUCache V) : Op V → LRUCache V
  | Op.get key => (Get c key).2
  | Op.put key value => Put c key value

/-- The state after a sequence of calls, first call first. -/
def run (c : LRUCache V) (ops : List (Op V)) : LRUCache V := ops.foldl step c

/-- States reachable from `NewLRUCache capacity` by `Put`/`Get` calls. -/
def Reachable (capacity : Int) (s : LRUCache V) : Prop :=
  ∃ ops : List (Op V), run (NewLRUCache capacity) ops = s

/-! ## Observations -/

/-- The `(key, value)` pair carried by the element at address `e`. -/
def view (heap : List (CacheItem V)) (e : Nat) : Option (String × Option V) :=
  (deref heap e).map (fun item => (item.Key, item.Value))

/-- The recency list read front to back as `(key, value)` pairs. -/
def entries (c : LRUCache V) : List (String × Option V) :=
  c.list.filterMap (view c.heap)

/-- The keys of the recency list, front to back. -/
def listKeys (c : LRUCache V) : List String := (entries c).map Prod.fst

/-- The keys of the index. -/
def indexKeys (c : LRUCache V) : List String := c.cache.map Prod.fst

/-- Key `key` is held: the index has an entry for it. -/
def held (c : LRUCache V) (key : String) : Prop := (mapLookup c.cache key).isSome = true

instance (c : LRUCache V) (key : String) : Decidable (held c key) := by
  unfold held; infer_instance

/-! ## Representation invariant -/

/-- The index and the recency list describe the same set of elements: index
keys are pairwise distinct, list addresses are pairwise distinct, the addresses
stored in the index are exactly those of the list, each index entry points to
an allocated item carrying its key, and the list length respects the capacity
(a negative capacity leaves room for one element). -/
structure WF (c : LRUCache V) : Prop where
  keys_nodup : (indexKeys c).Nodup
  list_nodup : c.list.Nodup
  perm : (c.cache.map Prod.snd).Perm c.list
  key_ok : ∀ k p, (k, p) ∈ c.cache → ∃ item, deref c.heap p = some item ∧ item.Key = k
  bound_nonneg : 0 ≤ c.capacity → (c.list.length : Int) ≤ c.capacity
  bound_neg : c.capacity < 0 → c.list.length ≤ 1

/-! ## Contents-level description of the operations

These functions act on the recency list read as `(key, value)` pairs; the
theorems below show that `Get` and `Put` act on `entries` exactly this way. -/

/-- The value paired with `key` in a list of `(key, value)` pairs. -/
def assocValue (es : List (String × Option V)) (key : String) : Option (Option V) :=
  match es with
  | [] => none
  | (k, v) :: rest => if k = key then some v else assocValue rest key

/-- The pairs whose key differs from `key`, in their order. -/
def dropKey (es : List (String × Option V)) (key : String) : List (String × Option V) :=
  es.filter (fun kv => decide (kv.1 ≠ key))

/-- Effect of `Get` on the contents: a held key moves to the front. -/
def touchEntries (es : List (String × Option V)) (key : String) : List (String × Option V) :=
  match assocValue es key with
  | some v => (key, v) :: dropKey es key
  | none => es

/-- Effect of `Put` on the contents. -/
def putEntries (capacity : Int) (es : List (String × Option V)) (key : String)
    (value : Option V) : List (String × Option V) :=
  if capacity = 0 then es
  else if key ∈ es.map Prod.fst then (key, value) :: dropKey es key
  else if (es.length : Int) ≥ capacity then (key, value) :: es.dropLast
  else (key, value) :: es

/-- Effect of one call on the contents. -/
def stepEntries (capacity : Int) (es : List (String × Option V)) : Op V → List (String × Option V)
  | Op.get key => touchEntries es key
  | Op.put key value => putEntries capacity es key value

/-! ## Sample states used to instantiate the theorems -/

/-- Capacity 2 after `Put A 1; Put B 2`: full. -/
def sampleAB : LRUCache Nat :=
  run (NewLRUCache 2) [Op.put "A" (some 1), Op.put "B" (some 2)]

/-- Capacity 3 after `Put A 1; Put B 2`: one free place. -/
def sampleSpare : LRUCache Nat :=
  run (NewLRUCache 3) [Op.put "A" (some 1), Op.put "B" (some 2)]

/-! ## Histories: touches and writes -/

/-- The key a call touches in state `c`: a `Put` touches its key, a `Get`
touches its key when it hits. -/
def touchOf (c : LRUCache V) : Op V → Option String
  | Op.put key _ => some key
  | Op.get key => if (Get c key).1.2 = true then some key else none

/-- The touches made by a sequence of calls started in state `c`, one entry per
call, first call first. -/
def touchLog (c : LRUCache V) : List (Op V) → List (Option String)
  | [] => []
  | op :: ops => touchOf c op :: touchLog (step c op) ops

/-- Search of the most recent touch of `key` in a log read newest first. -/
def lastTouchRev : List (Option String) → String → Option Nat
  | [], _ => none
  | x :: older, key => if x = some key then some older.length else lastTouchRev older key

/-- The position in the log (the time) of the most recent touch of `key`, when
there is one. -/
def lastTouch (log : List (Option String)) (key : String) : Option Nat :=
  lastTouchRev log.reverse key

/-- The keys `keys`, read front to back, are in strictly decreasing order of
the time of their last touch, and each of them has been touched. -/
def RecencyOrdered (log : List (Option String)) (keys : List String) : Prop :=
  keys.Pairwise (fun a b => ∃ ta tb, lastTouch log a = some ta ∧ lastTouch log b = some tb ∧
    tb < ta) ∧
  ∀ k ∈ keys, ∃ t, lastTouch log k = some t

/-- Search of the most recent `Put` of `key` in a call sequence read newest
first. -/
def lastPutRev : List (Op V) → String → Option (Option V)
  | [], _ => none
  | Op.put k v :: older, key => if k = key then some v else lastPutRev older key
  | Op.get _ :: older, key => lastPutRev older key

/-- The value passed to the most recent `Put` of `key` in a call sequence, when
there is one. -/
def lastPut (ops : List (Op V)) (key : String) : Option (Option V) :=
  lastPutRev ops.reverse key

/-- The calls `Put k_1 v_1; ...; Put k_n v_n` for a list of pairs. -/
def putAll (kvs : List (String × Option V)) : List (Op V) :=
  kvs.map (fun kv => Op.put kv.1 kv.2)

/-- Capacity 3 after `Put A 1; Put B 2; Get A; Put C 3`: full, `B` least
recently touched. -/
def sampleFull : LRUCache Nat :=
  run (NewLRUCache 3) [Op.put "A" (some 1), Op.put "B" (some 2), Op.get "A", Op.put "C" (some 3)]

/-! ## Results of a call sequence, repeated statistics reads -/

/-- The results `(value, found)` of the `Get` calls of a call sequence started
in state `c`, in call order. -/
def getResults (c : LRUCache V) : List (Op V) → List (Option V × Bool)
  | [] => []
  | Op.get key :: ops => (Get c key).1 :: getResults (Get c key).2 ops
  | Op.put key value :: ops => getResults (Put c key value) ops

/-- The number of `Get` calls in a call sequence. -/
def getCount : List (Op V) → Nat
  | [] => 0
  | Op.get _ :: ops => getCount ops + 1
  | Op.put _ _ :: ops => getCount ops

/-- The results of `n` consecutive calls of `GetHitMissCount` started in state
`c`, and the state afterwards. -/
def statsCalls (c : LRUCache V) : Nat → List (Int × Int) × LRUCache V
  | 0 => ([], c)
  | n + 1 =>
      ((GetHitMissCount c).1 :: (statsCalls (GetHitMissCount c).2 n).1,
        (statsCalls (GetHitMissCount c).2 n).2)

/-- The call sequence of the test `TestLRUCacheHitMissRatio`. -/
def hitMissCalls : List (Op String) :=
  [Op.put "A" (some "valueA"), Op.put "B" (some "valueB"), Op.put "C" (some "valueC"),
   Op.get "A", Op.get "B", Op.get "D", Op.put "E" (some "valueE"),
   Op.get "A", Op.get "C", Op.get "E"]

/-- The front key of `keys`, when there is one, carries the latest touch of the
whole log. -/
def FrontLatest (log : List (Option String)) (keys : List String) : Prop :=
  ∀ k, keys.head? = some k →
    ∃ t, lastTouch log k = some t ∧ ∀ k' t', lastTouch log k' = some t' → t' ≤ t

/-! ## The two lock sections of `Get`

`Get` takes the read lock for the lookup (lines 43-45), releases it, and on a
hit takes the write lock for the promotion (lines 48-52).  Other calls can run
between the two sections; each section is run here as one step. -/

/-- First section of `Get`, under `RLock`..`RUnlock`: the lookup in the map. -/
def GetLookup (c : LRUCache V) (key : String) : Option Nat := mapLookup c.cache key

/-- Second section of `Get` on a hit, under `Lock`..`Unlock`: move `element` to
the front, count the hit, read the value through the element pointer. -/
def GetPromote (c : LRUCache V) (element : Nat) : (Option V × Bool) × LRUCache V :=
  ((elemValue c.heap element, true),
    { c with list := MoveToFront c.list element, hits := c.hits + 1 })

/-- The miss path of `Get`, run with no lock held. -/
def GetMissed (c : LRUCache V) : (Option V × Bool) × LRUCache V :=
  ((none, false), { c with misses := c.misses + 1 })

/-- The same state with another capacity. -/
def withCapacity (capacity : Int) (c : LRUCache V) : LRUCache V :=
  { c with capacity := capacity }

/-! ## The counters as 64-bit integers -/

/-- The largest value of Go's `int` on a 64-bit platform, `2^63 - 1`. -/
def maxInt64 : Int := 9223372036854775807

/-- Go's `int` arithmetic on 64 bits: the value of `x` reduced to the range
from `-2^63` to `2^63 - 1` (two's complement). -/
def wrapInt64 (x : Int) : Int :=
  (x + 9223372036854775808) % 18446744073709551616 - 9223372036854775808

/-- Go `(*LRUCache).Get` with `c.hits++` and `c.misses++` computed in the 64-bit
`int`: the pair `(value, found)` and the state afterwards. -/
def Get64 (c : LRUCache V) (key : String) : (Option V × Bool) × LRUCache V :=
  match mapLookup c.cache key with
  | some element =>
      ((elemValue c.heap element, true),
        { c with list := MoveToFront c.list element, hits := wrapInt64 (c.hits + 1) })
  | none => ((none, false), { c with misses := wrapInt64 (c.misses + 1) })

/-- The state after one call, counters in the 64-bit `int`. -/
def step64 (c : LRUCache V) : Op V → LRUCache V
  | Op.get key => (Get64 c key).2
  | Op.put key value => Put c key value

/-- The state after a sequence of calls, counters in the 64-bit `int`. -/
def run64 (c : LRUCache V) (ops : List (Op V)) : LRUCache V := ops.foldl step64 c

/-- The state `sampleAB` with `hits` at the largest `int`. -/
def sampleMaxHits : LRUCache Nat := { sampleAB with hits := maxInt64 }

/-- The state `sampleAB` with `misses` at the largest `int`. -/
def sampleMaxMisses : LRUCache Nat := { sampleAB with misses := maxInt64 }

/-! ## Lemmas on the map primitives -/

theorem mapLookup_eq_none_iff (m : List (String × Nat)) (k : String) :
    mapLookup m k = none ↔ k ∉ m.map Prod.fst := by
  induction m with
  | nil => simp [mapLookup]
  | cons kp rest ih =>
    obtain ⟨k', p⟩ := kp
    by_cases h : k' = k
    · simp [mapLookup, h]
    · have h' : ¬ k = k' := fun e => h e.symm
      simp only [mapLookup, h, if_false, ih, List.map_cons, List.mem_cons, h', false_or]

theorem mem_of_mapLookup {m : List (String × Nat)} {k : String} {p : Nat}
    (h : mapLookup m k = some p) : (k, p) ∈ m := by
  induction m with
  | nil => simp [mapLookup] at h
  | cons kp rest ih =>
    obtain ⟨k', q⟩ := kp
    by_cases hk : k' = k
    · simp [mapLookup, hk] at h
      simp [hk, h]
    · simp only [mapLookup, hk, if_false] at h
      exact List.mem_cons_of_mem _ (ih h)

theorem mapLookup_of_mem {m : List (String × Nat)} {k : String} {p : Nat}
    (nd : (m.map Prod.fst).Nodup) (h : (k, p) ∈ m) : mapLookup m k = some p := by
  induction m with
  | nil => simp at h
  | cons kp rest ih =>
    obtain ⟨k', q⟩ := kp
    simp only [List.map_cons, List.nodup_cons] at nd
    rcases List.mem_cons.1 h with e | e
    · cases e
      simp [mapLookup]
    · have hk : k' ≠ k := by
        intro e'
        subst e'
        exact nd.1 (List.mem_map_of_mem Prod.fst e)
      simp only [mapLookup, hk, if_false]
      exact ih nd.2 e

theorem mapDelete_of_not_mem {m : List (String × Nat)} {k : String}
    (h : k ∉ m.map Prod.fst) : mapDelete m k = m := by
  unfold mapDelete
  rw [List.filter_eq_self]
  intro kp hkp
  have : kp.1 ≠ k := fun e => h (e ▸ List.mem_map_of_mem Prod.fst hkp)
  simpa using this

theorem mapDelete_sublist (m : List (String × Nat)) (k : String) :
    (mapDelete m k).Sublist m := List.filter_sublist m

theorem mem_mapDelete {m : List (String × Nat)} {k : String} {kp : String × Nat} :
    kp ∈ mapDelete m k ↔ kp ∈ m ∧ kp.1 ≠ k := by
  simp [mapDelete]

theorem perm_cons_mapDelete {m : List (String × Nat)} {k : String} {p : Nat}
    (nd : (m.map Prod.fst).Nodup) (h : (k, p) ∈ m) :
    m.Perm ((k, p) :: mapDelete m k) := by
  induction m with
  | nil => simp at h
  | cons kp rest ih =>
    obtain ⟨k', q⟩ := kp
    simp only [List.map_cons, List.nodup_cons] at nd
    by_cases hk : k' = k
    · subst hk
      have hq : q = p := by
        rcases List.mem_cons.1 h with e | e
        · cases e; rfl
        · exact absurd (List.mem_map_of_mem Prod.fst e) nd.1
      subst hq
      have : mapDelete ((k', q) :: rest) k' = rest := by
        have := mapDelete_of_not_mem nd.1
        simpa [mapDelete] using this
      rw [this]
    · have hmem : (k, p) ∈ rest := by
        rcases List.mem_cons.1 h with e | e
        · cases e; exact absurd rfl hk
        · exact e
      have : mapDelete ((k', q) :: rest) k = (k', q) :: mapDelete rest k := by
        simp [mapDelete, hk]
      rw [this]
      exact ((ih nd.2 hmem).cons (k', q)).trans (List.Perm.swap _ _ _)

/-! ## Lemmas on the list primitives -/

theorem MoveToFront_eq {l : List Nat} {e : Nat} (h : e ∈ l) :
    MoveToFront l e = e :: l.erase e := by
  unfold MoveToFront
  by_cases hh : l.head? = some e
  · simp only [hh, or_true, if_true]
    cases l with
    | nil => simp at hh
    | cons a t =>
      simp only [List.head?_cons, Option.some.injEq] at hh
      subst hh
      simp
  · simp [h, hh]

theorem MoveToFront_perm (l : List Nat) (e : Nat) : (MoveToFront l e).Perm l := by
  by_cases h : e ∈ l
  · rw [MoveToFront_eq h]
    exact (List.perm_cons_erase h).symm
  · simp [MoveToFront, h]

/-! ## The representation invariant and its consequences -/

theorem WF.lookup {c : LRUCache V} (h : WF c) {k : String} {p : Nat}
    (hl : mapLookup c.cache k = some p) :
    p ∈ c.list ∧ ∃ item, deref c.heap p = some item ∧ item.Key = k := by
  have hm := mem_of_mapLookup hl
  refine ⟨?_, h.key_ok k p hm⟩
  exact h.perm.subset (List.mem_map_of_mem Prod.snd hm)

theorem WF.of_mem_list {c : LRUCache V} (h : WF c) {p : Nat} (hp : p ∈ c.list) :
    ∃ item, deref c.heap p = some item ∧ mapLookup c.cache item.Key = some p := by
  have hp' : p ∈ c.cache.map Prod.snd := h.perm.symm.subset hp
  obtain ⟨⟨k, q⟩, hkq, rfl⟩ := List.mem_map.1 hp'
  obtain ⟨item, hd, hk⟩ := h.key_ok k q hkq
  refine ⟨item, hd, ?_⟩
  rw [hk]
  exact mapLookup_of_mem h.keys_nodup hkq

theorem WF.lt_heap {c : LRUCache V} (h : WF c) {p : Nat} (hp : p ∈ c.list) :
    p < c.heap.length := by
  obtain ⟨item, hd, -⟩ := h.of_mem_list hp
  unfold deref at hd
  exact (List.getElem?_eq_some_iff.1 hd).1

theorem WF.length_eq {c : LRUCache V} (h : WF c) : c.cache.length = c.list.length := by
  have := h.perm.length_eq
  simpa using this

theorem WF_NewLRUCache (capacity : Int) : WF (NewLRUCache capacity : LRUCache V) where
  keys_nodup := by simp [NewLRUCache, indexKeys]
  list_nodup := by simp [NewLRUCache]
  perm := by simp [NewLRUCache]
  key_ok := by simp [NewLRUCache]
  bound_nonneg := by simp [NewLRUCache]
  bound_neg := by simp [NewLRUCache]

theorem WF_moveToFront {c : LRUCache V} (h : WF c) (e : Nat) (n m : Int) :
    WF { c with list := MoveToFront c.list e, hits := n, misses := m } where
  keys_nodup := h.keys_nodup
  list_nodup := (MoveToFront_perm c.list e).nodup_iff.2 h.list_nodup
  perm := h.perm.trans (MoveToFront_perm c.list e).symm
  key_ok := h.key_ok
  bound_nonneg := by
    intro hc
    have := h.bound_nonneg hc
    simpa [(MoveToFront_perm c.list e).length_eq] using this
  bound_neg := by
    intro hc
    have := h.bound_neg hc
    simpa [(MoveToFront_perm c.list e).length_eq] using this

theorem WF_counters {c : LRUCache V} (h : WF c) (n m : Int) :
    WF { c with hits := n, misses := m } where
  keys_nodup := h.keys_nodup
  list_nodup := h.list_nodup
  perm := h.perm
  key_ok := h.key_ok
  bound_nonneg := h.bound_nonneg
  bound_neg := h.bound_neg

theorem WF_Get {c : LRUCache V} (h : WF c) (key : String) : WF (Get c key).2 := by
  unfold Get
  cases hl : mapLookup c.cache key with
  | none => exact WF_counters h c.hits (c.misses + 1)
  | some e => exact WF_moveToFront h e (c.hits + 1) c.misses

theorem deref_setElemValue (heap : List (CacheItem V)) (e q : Nat) (value : Option V) :
    deref (setElemValue heap e value) q =
      (deref heap q).map (fun item => if e = q then { item with Value := value } else item) := by
  unfold setElemValue
  cases hd : deref heap e with
  | none =>
    by_cases heq : e = q
    · subst heq; simp [hd]
    · simp only [heq, if_false]
      cases deref heap q <;> rfl
  | some item =>
    unfold deref at *
    by_cases heq : e = q
    · subst heq
      have hlt := (List.getElem?_eq_some_iff.1 hd).1
      simp [List.getElem?_set, hlt, hd]
    · simp only [heq, if_false]
      rw [List.getElem?_set_ne heq]
      cases heap[q]? <;> rfl

theorem deref_append_of_some {heap : List (CacheItem V)} {p : Nat} {item : CacheItem V}
    (x : CacheItem V) (h : deref heap p = some item) : deref (heap ++ [x]) p = some item := by
  unfold deref at *
  have hlt := (List.getElem?_eq_some_iff.1 h).1
  rw [List.getElem?_append_left hlt, h]

theorem deref_append_length (heap : List (CacheItem V)) (x : CacheItem V) :
    deref (heap ++ [x]) heap.length = some x := by
  unfold deref
  exact List.getElem?_concat_length heap x

/-! ## Eviction -/

theorem evict_capacity (c : LRUCache V) : (evict c).capacity = c.capacity := by
  unfold evict
  split
  · split
    · split <;> rfl
    · rfl
  · rfl

theorem evict_heap (c : LRUCache V) : (evict c).heap = c.heap := by
  unfold evict
  split
  · split
    · split <;> rfl
    · rfl
  · rfl

theorem evict_hits (c : LRUCache V) : (evict c).hits = c.hits := by
  unfold evict
  split
  · split
    · split <;> rfl
    · rfl
  · rfl

theorem evict_misses (c : LRUCache V) : (evict c).misses = c.misses := by
  unfold evict
  split
  · split
    · split <;> rfl
    · rfl
  · rfl

/-- What `evict` does on a well-formed state: nothing below capacity or on an
empty list, and otherwise the back element leaves the list and its key leaves
the index. -/
theorem evict_cases {c : LRUCache V} (h : WF c) :
    (evict c = c ∧ ((c.list.length : Int) < c.capacity ∨ c.list = [])) ∨
    (∃ back item, (c.list.length : Int) ≥ c.capacity ∧ c.list.getLast? = some back ∧
      deref c.heap back = some item ∧ mapLookup c.cache item.Key = some back ∧
      evict c = { c with cache := mapDelete c.cache item.Key, list := c.list.erase back }) := by
  unfold evict
  by_cases hc : (Len c.list : Int) ≥ c.capacity
  · simp only [hc, if_true]
    cases hb : Back c.list with
    | none =>
      left
      constructor
      · rfl
      · right
        simpa [Back] using hb
    | some back =>
      right
      have hmem : back ∈ c.list := List.mem_of_getLast?_eq_some hb
      obtain ⟨item, hd, hl⟩ := h.of_mem_list hmem
      refine ⟨back, item, hc, hb, hd, hl, ?_⟩
      simp [hd, Remove]
  · left
    simp only [hc, if_false]
    refine ⟨trivial, Or.inl ?_⟩
    simpa [Len] using hc

theorem WF_evict {c : LRUCache V} (h : WF c) : WF (evict c) := by
  rcases evict_cases h with ⟨he, -⟩ | ⟨back, item, -, hb, hd, hl, he⟩
  · rw [he]; exact h
  · rw [he]
    have hmem : back ∈ c.list := List.mem_of_getLast?_eq_some hb
    have hkp : (item.Key, back) ∈ c.cache := mem_of_mapLookup hl
    have hperm := perm_cons_mapDelete h.keys_nodup hkp
    refine ⟨?_, ?_, ?_, ?_, ?_, ?_⟩
    · exact ((mapDelete_sublist c.cache item.Key).map Prod.fst).nodup h.keys_nodup
    · exact h.list_nodup.erase back
    · have h1 : (back :: (mapDelete c.cache item.Key).map Prod.snd).Perm
          (back :: c.list.erase back) := by
        have := hperm.map Prod.snd
        simp only [List.map_cons] at this
        exact this.symm.trans (h.perm.trans (List.perm_cons_erase hmem))
      exact h1.cons_inv
    · intro k p hkp'
      exact h.key_ok k p (mem_mapDelete.1 hkp').1
    · intro h0
      have := h.bound_nonneg h0
      have hle : (c.list.erase back).length ≤ c.list.length := by
        rw [List.length_erase_of_mem hmem]; omega
      show ((c.list.erase back).length : Int) ≤ c.capacity
      omega
    · intro h0
      have := h.bound_neg h0
      have hle : (c.list.erase back).length ≤ c.list.length := by
        rw [List.length_erase_of_mem hmem]; omega
      show (c.list.erase back).length ≤ 1
      omega

/-- After `evict` there is room for one more element. -/
theorem evict_room {c : LRUCache V} (h : WF c) :
    (0 < c.capacity → ((evict c).list.length : Int) + 1 ≤ c.capacity) ∧
    (c.capacity < 0 → (evict c).list = []) := by
  rcases evict_cases h with ⟨he, hlt⟩ | ⟨back, item, hge, hb, hd, hl, he⟩
  · rw [he]
    constructor
    · intro hpos
      rcases hlt with hlt | hnil
      · omega
      · rw [hnil]; simp; omega
    · intro hneg
      rcases hlt with hlt | hnil
      · omega
      · exact hnil
  · rw [he]
    have hmem : back ∈ c.list := List.mem_of_getLast?_eq_some hb
    have hlen : (c.list.erase back).length = c.list.length - 1 :=
      List.length_erase_of_mem hmem
    have hpos : 0 < c.list.length := List.length_pos_of_mem hmem
    constructor
    · intro hcp
      have := h.bound_nonneg (le_of_lt hcp)
      show ((c.list.erase back).length : Int) + 1 ≤ c.capacity
      omega
    · intro hneg
      have := h.bound_neg hneg
      show c.list.erase back = []
      apply List.eq_nil_of_length_eq_zero
      omega

theorem evict_lookup_none {c : LRUCache V} {key : String}
    (hl : mapLookup c.cache key = none) : mapLookup (evict c).cache key = none := by
  rw [mapLookup_eq_none_iff] at hl ⊢
  intro hmem
  apply hl
  have hsub : ((evict c).cache).Sublist c.cache := by
    unfold evict
    split
    · split
      · split
        · exact mapDelete_sublist _ _
        · exact List.Sublist.refl _
      · exact List.Sublist.refl _
    · exact List.Sublist.refl _
  exact (hsub.map Prod.fst).subset hmem

/-! ## `Put` keeps the representation invariant -/

theorem Put_of_zero {c : LRUCache V} (h0 : c.capacity = 0) (key : String) (value : Option V) :
    Put c key value = c := by
  simp [Put, h0]

theorem Put_of_held {c : LRUCache V} (h0 : c.capacity ≠ 0) {key : String} {e : Nat}
    (hl : mapLookup c.cache key = some e) (value : Option V) :
    Put c key value =
      { c with list := MoveToFront c.list e, heap := setElemValue c.heap e value } := by
  simp [Put, h0, hl]

theorem Put_of_absent {c : LRUCache V} (h0 : c.capacity ≠ 0) {key : String}
    (hl : mapLookup c.cache key = none) (value : Option V) :
    Put c key value =
      { evict c with
        heap := c.heap ++ [{ Key := key, Value := value }],
        list := c.heap.length :: (evict c).list,
        cache := (key, c.heap.length) :: (evict c).cache } := by
  have hn := evict_lookup_none hl
  have hd : mapDelete (evict c).cache key = (evict c).cache :=
    mapDelete_of_not_mem ((mapLookup_eq_none_iff _ _).1 hn)
  simp [Put, h0, hl, PushFront, mapStore, hd, evict_heap]

theorem WF_Put {c : LRUCache V} (h : WF c) (key : String) (value : Option V) :
    WF (Put c key value) := by
  by_cases h0 : c.capacity = 0
  · rw [Put_of_zero h0]; exact h
  cases hl : mapLookup c.cache key with
  | some e =>
    rw [Put_of_held h0 hl]
    have hw := WF_moveToFront h e c.hits c.misses
    refine ⟨hw.keys_nodup, hw.list_nodup, hw.perm, ?_, hw.bound_nonneg, hw.bound_neg⟩
    intro k p hkp
    obtain ⟨item, hd, hk⟩ := h.key_ok k p hkp
    refine ⟨if e = p then { item with Value := value } else item, ?_, ?_⟩
    · show deref (setElemValue c.heap e value) p = _
      rw [deref_setElemValue, hd]; rfl
    · split <;> exact hk
  | none =>
    rw [Put_of_absent h0 hl]
    have hw := WF_evict h
    have hn := evict_lookup_none hl
    have hroom := evict_room h
    have hfresh : c.heap.length ∉ (evict c).list := by
      intro hmem
      have := hw.lt_heap hmem
      rw [evict_heap] at this
      exact lt_irrefl _ this
    refine ⟨?_, ?_, ?_, ?_, ?_, ?_⟩
    · show ((key, c.heap.length) :: (evict c).cache).map Prod.fst |>.Nodup
      rw [List.map_cons, List.nodup_cons]
      exact ⟨(mapLookup_eq_none_iff _ _).1 hn, hw.keys_nodup⟩
    · show (c.heap.length :: (evict c).list).Nodup
      exact List.nodup_cons.2 ⟨hfresh, hw.list_nodup⟩
    · show (((key, c.heap.length) :: (evict c).cache).map Prod.snd).Perm
        (c.heap.length :: (evict c).list)
      rw [List.map_cons]
      exact hw.perm.cons _
    · intro k p hkp
      show ∃ item, deref (c.heap ++ [_]) p = some item ∧ item.Key = k
      rcases List.mem_cons.1 hkp with e | e
      · cases e
        exact ⟨_, deref_append_length _ _, rfl⟩
      · obtain ⟨item, hd, hk⟩ := hw.key_ok k p e
        rw [evict_heap] at hd
        exact ⟨item, deref_append_of_some _ hd, hk⟩
    · intro hc
      have hpos : 0 < c.capacity := by
        rw [evict_capacity] at hc
        omega
      have := hroom.1 hpos
      show ((c.heap.length :: (evict c).list).length : Int) ≤ (evict c).capacity
      rw [evict_capacity, List.length_cons]
      push_cast
      omega
    · intro hc
      rw [evict_capacity] at hc
      have := hroom.2 hc
      show (c.heap.length :: (evict c).list).length ≤ 1
      rw [this]; simp

theorem WF_step {c : LRUCache V} (h : WF c) (op : Op V) : WF (step c op) := by
  cases op with
  | get key => exact WF_Get h key
  | put key value => exact WF_Put h key value

theorem WF_run {c : LRUCache V} (h : WF c) (ops : List (Op V)) : WF (run c ops) := by
  induction ops generalizing c with
  | nil => exact h
  | cons op ops ih => exact ih (WF_step h op)

theorem Reachable.wf {capacity : Int} {s : LRUCache V} (h : Reachable capacity s) : WF s := by
  obtain ⟨ops, rfl⟩ := h
  exact WF_run (WF_NewLRUCache capacity) ops

/-! ## The contents of a well-formed state -/

theorem filterMap_filter_comm {α β : Type} (f : α → Option β) (P : α → Bool) (Q : β → Bool)
    (l : List α) (h : ∀ q ∈ l, ∀ b, f q = some b → P q = Q b) :
    (l.filter P).filterMap f = (l.filterMap f).filter Q := by
  induction l with
  | nil => rfl
  | cons a t ih =>
    have iht := ih (fun q hq => h q (List.mem_cons_of_mem _ hq))
    cases hf : f a with
    | none =>
      by_cases hP : P a = true
      · simp [List.filter_cons, hP, List.filterMap_cons, hf, iht]
      · simp [List.filter_cons, hP, List.filterMap_cons, hf, iht]
    | some b =>
      have hPQ := h a (List.mem_cons_self _ _) b hf
      by_cases hP : P a = true
      · have hQ : Q b = true := hPQ ▸ hP
        simp [List.filter_cons, hP, hQ, List.filterMap_cons, hf, iht]
      · have hQ : ¬ Q b = true := hPQ ▸ hP
        simp [List.filter_cons, hP, hQ, List.filterMap_cons, hf, iht]

theorem WF.view_of_lookup {c : LRUCache V} (h : WF c) {k : String} {p : Nat}
    (hl : mapLookup c.cache k = some p) : view c.heap p = some (k, elemValue c.heap p) := by
  obtain ⟨-, item, hd, hk⟩ := h.lookup hl
  simp [view, elemValue, hd, hk]

theorem WF.view_of_mem {c : LRUCache V} (h : WF c) {p : Nat} (hp : p ∈ c.list) :
    ∃ kv, view c.heap p = some kv ∧ mapLookup c.cache kv.1 = some p := by
  obtain ⟨item, hd, hl⟩ := h.of_mem_list hp
  exact ⟨(item.Key, item.Value), by simp [view, hd], hl⟩

theorem WF.key_eq_iff {c : LRUCache V} (h : WF c) {k : String} {p q : Nat}
    (hl : mapLookup c.cache k = some p) (hq : q ∈ c.list) {kv : String × Option V}
    (hv : view c.heap q = some kv) : kv.1 = k ↔ q = p := by
  obtain ⟨kv', hv', hl'⟩ := h.view_of_mem hq
  rw [hv] at hv'
  cases hv'
  constructor
  · intro e
    rw [e, hl] at hl'
    exact (Option.some.inj hl').symm
  · intro e
    subst e
    have := h.view_of_lookup hl
    rw [hv] at this
    cases this
    rfl

theorem entries_length {c : LRUCache V} (h : WF c) : (entries c).length = c.list.length := by
  unfold entries
  have : ∀ l : List Nat, (∀ p ∈ l, p ∈ c.list) → (l.filterMap (view c.heap)).length = l.length := by
    intro l
    induction l with
    | nil => intro _; rfl
    | cons a t ih =>
      intro hsub
      obtain ⟨kv, hv, -⟩ := h.view_of_mem (hsub a (List.mem_cons_self _ _))
      rw [List.filterMap_cons, hv]
      simp [ih (fun p hp => hsub p (List.mem_cons_of_mem _ hp))]
  exact this c.list (fun _ hp => hp)

theorem mem_entries_of_lookup {c : LRUCache V} (h : WF c) {k : String} {p : Nat}
    (hl : mapLookup c.cache k = some p) : (k, elemValue c.heap p) ∈ entries c := by
  unfold entries
  rw [List.mem_filterMap]
  exact ⟨p, (h.lookup hl).1, h.view_of_lookup hl⟩

theorem lookup_of_mem_entries {c : LRUCache V} (h : WF c) {kv : String × Option V}
    (hm : kv ∈ entries c) :
    ∃ p, mapLookup c.cache kv.1 = some p ∧ kv.2 = elemValue c.heap p := by
  unfold entries at hm
  rw [List.mem_filterMap] at hm
  obtain ⟨p, hp, hv⟩ := hm
  obtain ⟨kv', hv', hl⟩ := h.view_of_mem hp
  rw [hv] at hv'
  cases hv'
  refine ⟨p, hl, ?_⟩
  have := h.view_of_lookup hl
  rw [hv] at this
  exact congrArg Prod.snd (Option.some.inj this)

theorem held_iff_mem_listKeys {c : LRUCache V} (h : WF c) (k : String) :
    held c k ↔ k ∈ listKeys c := by
  unfold held listKeys
  constructor
  · intro hh
    obtain ⟨p, hp⟩ := Option.isSome_iff_exists.1 hh
    exact List.mem_map.2 ⟨_, mem_entries_of_lookup h hp, rfl⟩
  · intro hm
    obtain ⟨kv, hkv, rfl⟩ := List.mem_map.1 hm
    obtain ⟨p, hl, -⟩ := lookup_of_mem_entries h hkv
    simp [hl]

theorem listKeys_nodup {c : LRUCache V} (h : WF c) : (listKeys c).Nodup := by
  unfold listKeys entries
  have : ∀ l : List Nat, l.Nodup → (∀ p ∈ l, p ∈ c.list) →
      ((l.filterMap (view c.heap)).map Prod.fst).Nodup := by
    intro l
    induction l with
    | nil => intro _ _; simp
    | cons a t ih =>
      intro hnd hsub
      rw [List.nodup_cons] at hnd
      have ha := hsub a (List.mem_cons_self _ _)
      obtain ⟨kv, hv, hl⟩ := h.view_of_mem ha
      rw [List.filterMap_cons, hv]
      simp only [List.map_cons, List.nodup_cons]
      refine ⟨?_, ih hnd.2 (fun p hp => hsub p (List.mem_cons_of_mem _ hp))⟩
      intro hmem
      obtain ⟨kv', hkv', he⟩ := List.mem_map.1 hmem
      obtain ⟨q, hq, hvq⟩ := List.mem_filterMap.1 hkv'
      have := (h.key_eq_iff hl (hsub q (List.mem_cons_of_mem _ hq)) hvq).1 he
      exact hnd.1 (this ▸ hq)
  exact this c.list h.list_nodup (fun _ hp => hp)

/-! ## `Get` and `Put` on the contents -/

theorem filterMap_congr_mem {α β : Type} {f g : α → Option β} {l : List α}
    (h : ∀ q ∈ l, f q = g q) : l.filterMap f = l.filterMap g := by
  induction l with
  | nil => rfl
  | cons a t ih =>
    rw [List.filterMap_cons, List.filterMap_cons, h a (List.mem_cons_self _ _),
      ih (fun q hq => h q (List.mem_cons_of_mem _ hq))]

theorem assocValue_eq_none_iff (es : List (String × Option V)) (k : String) :
    assocValue es k = none ↔ k ∉ es.map Prod.fst := by
  induction es with
  | nil => simp [assocValue]
  | cons kv rest ih =>
    obtain ⟨k', v⟩ := kv
    by_cases h : k' = k
    · simp [assocValue, h]
    · have h' : ¬ k = k' := fun e => h e.symm
      simp only [assocValue, h, if_false, ih, List.map_cons, List.mem_cons, h', false_or]

theorem assocValue_of_mem {es : List (String × Option V)} {k : String} {v : Option V}
    (nd : (es.map Prod.fst).Nodup) (h : (k, v) ∈ es) : assocValue es k = some v := by
  induction es with
  | nil => simp at h
  | cons kv rest ih =>
    obtain ⟨k', w⟩ := kv
    simp only [List.map_cons, List.nodup_cons] at nd
    rcases List.mem_cons.1 h with e | e
    · cases e
      simp [assocValue]
    · have hk : k' ≠ k := by
        intro e'
        subst e'
        exact nd.1 (List.mem_map_of_mem Prod.fst e)
      simp only [assocValue, hk, if_false]
      exact ih nd.2 e

theorem mem_of_assocValue {es : List (String × Option V)} {k : String} {v : Option V}
    (h : assocValue es k = some v) : (k, v) ∈ es := by
  induction es with
  | nil => simp [assocValue] at h
  | cons kv rest ih =>
    obtain ⟨k', w⟩ := kv
    by_cases hk : k' = k
    · simp [assocValue, hk] at h
      simp [hk, h]
    · simp only [assocValue, hk, if_false] at h
      exact List.mem_cons_of_mem _ (ih h)

theorem assocValue_entries {c : LRUCache V} (h : WF c) (k : String) :
    assocValue (entries c) k = (mapLookup c.cache k).map (elemValue c.heap) := by
  cases hl : mapLookup c.cache k with
  | none =>
    rw [Option.map_none', assocValue_eq_none_iff]
    intro hm
    have := (held_iff_mem_listKeys h k).2 hm
    simp [held, hl] at this
  | some p =>
    rw [Option.map_some']
    exact assocValue_of_mem (listKeys_nodup h) (mem_entries_of_lookup h hl)

/-- The result of `Get` read off the contents. -/
theorem Get_result {c : LRUCache V} (h : WF c) (k : String) :
    (Get c k).1 = match assocValue (entries c) k with
      | some v => (v, true)
      | none => (none, false) := by
  rw [assocValue_entries h]
  unfold Get
  cases mapLookup c.cache k <;> rfl

theorem filterMap_moveToFront {c : LRUCache V} (h : WF c) {k : String} {p : Nat}
    (hl : mapLookup c.cache k = some p) (heap' : List (CacheItem V)) (v' : Option V)
    (hp : view heap' p = some (k, v'))
    (hq : ∀ q ∈ c.list, q ≠ p → view heap' q = view c.heap q) :
    (MoveToFront c.list p).filterMap (view heap') = (k, v') :: dropKey (entries c) k := by
  have hmem := (h.lookup hl).1
  rw [MoveToFront_eq hmem, List.filterMap_cons, hp]
  show (k, v') :: (c.list.erase p).filterMap (view heap') = _
  congr 1
  have hcongr : (c.list.erase p).filterMap (view heap') =
      (c.list.erase p).filterMap (view c.heap) := by
    apply filterMap_congr_mem
    intro q hq'
    have := (h.list_nodup.mem_erase_iff).1 hq'
    exact hq q this.2 this.1
  rw [hcongr, h.list_nodup.erase_eq_filter]
  unfold dropKey entries
  apply filterMap_filter_comm
  intro q hq' kv hv
  have := h.key_eq_iff hl hq' hv
  by_cases e : q = p
  · have e' : kv.1 = k := this.2 e
    simp [e, e']
  · have e' : ¬ kv.1 = k := fun x => e (this.1 x)
    simp [e, e']

theorem entries_Get {c : LRUCache V} (h : WF c) (k : String) :
    entries (Get c k).2 = touchEntries (entries c) k := by
  unfold touchEntries
  rw [assocValue_entries h]
  unfold Get
  cases hl : mapLookup c.cache k with
  | none => rfl
  | some p =>
    show (MoveToFront c.list p).filterMap (view c.heap) = _
    rw [Option.map_some']
    exact filterMap_moveToFront h hl c.heap _ (h.view_of_lookup hl) (fun _ _ _ => rfl)

theorem view_setElemValue (heap : List (CacheItem V)) (e q : Nat) (value : Option V) :
    view (setElemValue heap e value) q =
      (view heap q).map (fun kv => if e = q then (kv.1, value) else kv) := by
  unfold view
  rw [deref_setElemValue]
  cases deref heap q with
  | none => rfl
  | some item =>
    by_cases heq : e = q <;> simp [heq]

theorem entries_evict {c : LRUCache V} (h : WF c) :
    entries (evict c) =
      if (c.list.length : Int) ≥ c.capacity then (entries c).dropLast else entries c := by
  rcases evict_cases h with ⟨he, hlt | hnil⟩ | ⟨back, item, hge, hb, hd, hl, he⟩
  · rw [he, if_neg (by omega)]
  · rw [he]
    have : entries c = [] := by simp [entries, hnil]
    rw [this]; simp
  · rw [he, if_pos hge]
    obtain ⟨ys, hys⟩ := List.getLast?_eq_some_iff.1 hb
    have hnd := h.list_nodup
    rw [hys] at hnd
    have hnot : back ∉ ys := by
      intro hm
      have := List.nodup_append.1 hnd
      exact this.2.2 hm (List.mem_singleton_self back)
    have herase : c.list.erase back = ys := by
      rw [hys, List.erase_append_right _ hnot]
      simp
    have hview : view c.heap back = some (item.Key, item.Value) := by simp [view, hd]
    show (c.list.erase back).filterMap (view c.heap) = (c.list.filterMap (view c.heap)).dropLast
    rw [herase, hys, List.filterMap_append]
    simp [hview]

theorem entries_Put {c : LRUCache V} (h : WF c) (k : String) (v : Option V) :
    entries (Put c k v) = putEntries c.capacity (entries c) k v := by
  unfold putEntries
  by_cases h0 : c.capacity = 0
  · rw [Put_of_zero h0, if_pos h0]
  rw [if_neg h0]
  cases hl : mapLookup c.cache k with
  | some p =>
    have hheld : k ∈ (entries c).map Prod.fst :=
      (held_iff_mem_listKeys h k).1 (by simp [held, hl])
    rw [Put_of_held h0 hl, if_pos hheld]
    show (MoveToFront c.list p).filterMap (view (setElemValue c.heap p v)) = _
    apply filterMap_moveToFront h hl
    · rw [view_setElemValue, h.view_of_lookup hl]; simp
    · intro q _ hne
      rw [view_setElemValue]
      have : ¬ p = q := fun e => hne e.symm
      simp only [this, if_false]
      cases view c.heap q <;> rfl
  | none =>
    have hnot : k ∉ (entries c).map Prod.fst := by
      intro hm
      have := (held_iff_mem_listKeys h k).2 hm
      simp [held, hl] at this
    rw [Put_of_absent h0 hl, if_neg hnot]
    have hw := WF_evict h
    have hrest : (evict c).list.filterMap (view (c.heap ++ [{ Key := k, Value := v }])) =
        entries (evict c) := by
      unfold entries
      apply filterMap_congr_mem
      intro q hq
      obtain ⟨item, hd, -⟩ := hw.of_mem_list hq
      rw [evict_heap] at hd ⊢
      simp [view, deref_append_of_some _ hd, hd]
    have hnew : view (c.heap ++ [{ Key := k, Value := v }]) c.heap.length = some (k, v) := by
      simp [view, deref_append_length]
    show (c.heap.length :: (evict c).list).filterMap
      (view (c.heap ++ [{ Key := k, Value := v }])) = _
    rw [List.filterMap_cons, hnew, hrest, entries_evict h, entries_length h]
    by_cases hge : (c.list.length : Int) ≥ c.capacity
    · simp only [hge, if_true]
    · simp only [hge, if_false]

theorem step_capacity (c : LRUCache V) (op : Op V) : (step c op).capacity = c.capacity := by
  cases op with
  | get key =>
    simp only [step, Get]
    cases mapLookup c.cache key <;> rfl
  | put key value =>
    simp only [step, Put]
    split
    · rfl
    · cases mapLookup c.cache key with
      | none => exact evict_capacity c
      | some e => rfl

theorem run_capacity (c : LRUCache V) (ops : List (Op V)) :
    (run c ops).capacity = c.capacity := by
  induction ops generalizing c with
  | nil => rfl
  | cons op ops ih =>
    show (run (step c op) ops).capacity = _
    rw [ih, step_capacity]

theorem entries_step {c : LRUCache V} (h : WF c) (op : Op V) :
    entries (step c op) = stepEntries c.capacity (entries c) op := by
  cases op with
  | get key => exact entries_Get h key
  | put key value => exact entries_Put h key value

theorem run_append (c : LRUCache V) (ops₁ ops₂ : List (Op V)) :
    run c (ops₁ ++ ops₂) = run (run c ops₁) ops₂ := by
  simp [run, List.foldl_append]

theorem entries_run {c : LRUCache V} (h : WF c) (ops : List (Op V)) :
    entries (run c ops) = ops.foldl (stepEntries c.capacity) (entries c) := by
  induction ops generalizing c with
  | nil => rfl
  | cons op ops ih =>
    show entries (run (step c op) ops) = _
    rw [ih (WF_step h op), step_capacity, entries_step h]
    rfl

/-! ## Counters and frame facts -/

theorem Put_hits (c : LRUCache V) (k : String) (v : Option V) : (Put c k v).hits = c.hits := by
  unfold Put
  split
  · rfl
  · cases mapLookup c.cache k with
    | none => exact evict_hits c
    | some e => rfl

theorem Put_misses (c : LRUCache V) (k : String) (v : Option V) :
    (Put c k v).misses = c.misses := by
  unfold Put
  split
  · rfl
  · cases mapLookup c.cache k with
    | none => exact evict_misses c
    | some e => rfl

theorem Reachable.capacity {C : Int} {s : LRUCache V} (h : Reachable C s) : s.capacity = C := by
  obtain ⟨ops, rfl⟩ := h
  rw [run_capacity]; rfl

theorem assocValue_dropKey (es : List (String × Option V)) {k k' : String} (h : k' ≠ k) :
    assocValue (dropKey es k) k' = assocValue es k' := by
  induction es with
  | nil => rfl
  | cons kv rest ih =>
    obtain ⟨a, w⟩ := kv
    by_cases ha : a = k
    · have hak' : ¬ a = k' := fun e => h (e ▸ ha)
      have : dropKey ((a, w) :: rest) k = dropKey rest k := by simp [dropKey, ha]
      rw [this, ih]
      simp [assocValue, hak']
    · have : dropKey ((a, w) :: rest) k = (a, w) :: dropKey rest k := by simp [dropKey, ha]
      rw [this]
      simp only [assocValue, ih]

theorem not_held_iff (c : LRUCache V) (k : String) :
    ¬ held c k ↔ mapLookup c.cache k = none := by
  unfold held
  cases mapLookup c.cache k <;> simp

/-! ## Capacity bound -/

/-- C1 (capacity bound). For every capacity `C ≥ 0` and every finite sequence
of `Put` and `Get` calls applied to `NewLRUCache C`, after every call (after
each prefix `ops.take n` of the sequence) the index keys are pairwise distinct,
the number of index keys equals the length of the recency list, that length is
at most `C`, and it is 0 whenever `C = 0`. -/
theorem capacity_bound (C : Int) (hC : 0 ≤ C) (ops : List (Op V)) (n : Nat) :
    (indexKeys (run (NewLRUCache C) (ops.take n))).Nodup ∧
    (indexKeys (run (NewLRUCache C) (ops.take n))).length =
      Len (run (NewLRUCache C) (ops.take n)).list ∧
    (Len (run (NewLRUCache C) (ops.take n)).list : Int) ≤ C ∧
    (C = 0 → (indexKeys (run (NewLRUCache C) (ops.take n))).length = 0) := by
  have hw : WF (run (NewLRUCache C : LRUCache V) (ops.take n)) :=
    WF_run (WF_NewLRUCache C) _
  have hcap : (run (NewLRUCache C : LRUCache V) (ops.take n)).capacity = C := by
    rw [run_capacity]; rfl
  have hlen : (indexKeys (run (NewLRUCache C : LRUCache V) (ops.take n))).length =
      Len (run (NewLRUCache C : LRUCache V) (ops.take n)).list := by
    unfold indexKeys Len
    rw [List.length_map]
    exact hw.length_eq
  have hb := hw.bound_nonneg (by rw [hcap]; exact hC)
  rw [hcap] at hb
  refine ⟨hw.keys_nodup, hlen, hb, ?_⟩
  intro h0
  rw [hlen]
  unfold Len
  omega

/-- C1 at capacity 2 with three insertions and one read. -/
theorem capacity_bound_witness :
    (0 : Int) ≤ 2 ∧
    ((indexKeys (run (NewLRUCache 2 : LRUCache Nat)
        ([Op.put "A" (some 1), Op.put "B" (some 2), Op.get "A", Op.put "C" (some 3)].take 4))).Nodup ∧
    (indexKeys (run (NewLRUCache 2 : LRUCache Nat)
        ([Op.put "A" (some 1), Op.put "B" (some 2), Op.get "A", Op.put "C" (some 3)].take 4))).length =
      Len (run (NewLRUCache 2 : LRUCache Nat)
        ([Op.put "A" (some 1), Op.put "B" (some 2), Op.get "A", Op.put "C" (some 3)].take 4)).list ∧
    (Len (run (NewLRUCache 2 : LRUCache Nat)
        ([Op.put "A" (some 1), Op.put "B" (some 2), Op.get "A", Op.put "C" (some 3)].take 4)).list : Int) ≤ 2 ∧
    ((2 : Int) = 0 → (indexKeys (run (NewLRUCache 2 : LRUCache Nat)
        ([Op.put "A" (some 1), Op.put "B" (some 2), Op.get "A", Op.put "C" (some 3)].take 4))).length = 0)) :=
  ⟨by decide, capacity_bound 2 (by decide) _ 4⟩

/-! ## `Get` -/

/-- C3 (Get hit). In every state reachable from `NewLRUCache C` in which key
`k` is held, with `v` the value stored for `k` and `p` the address of its node,
`Get k` returns `(v, true)`, increases `hits` by exactly 1, leaves `misses`,
the index and the memory unchanged, and moves the node of `k` to the front of
the recency list while the other nodes keep their relative order. -/
theorem Get_hit (C : Int) (s : LRUCache V) (hr : Reachable C s) (k : String)
    (hk : held s k) :
    ∃ p v, mapLookup s.cache k = some p ∧ assocValue (entries s) k = some v ∧
      (Get s k).1 = (v, true) ∧
      (Get s k).2.hits = s.hits + 1 ∧
      (Get s k).2.misses = s.misses ∧
      (Get s k).2.list = p :: s.list.erase p ∧
      entries (Get s k).2 = (k, v) :: (entries s).filter (fun kv => decide (kv.1 ≠ k)) ∧
      (Get s k).2.cache = s.cache ∧
      (Get s k).2.heap = s.heap := by
  have hw := hr.wf
  obtain ⟨p, hp⟩ := Option.isSome_iff_exists.1 hk
  have hv : assocValue (entries s) k = some (elemValue s.heap p) := by
    rw [assocValue_entries hw, hp]; rfl
  refine ⟨p, elemValue s.heap p, hp, hv, ?_, ?_, ?_, ?_, ?_, ?_, ?_⟩
  · rw [Get_result hw, hv]
  · simp [Get, hp]
  · simp [Get, hp]
  · simp [Get, hp, MoveToFront_eq (hw.lookup hp).1]
  · rw [entries_Get hw, touchEntries, hv]; rfl
  · simp [Get, hp]
  · simp [Get, hp]

/-- C3 on the state after `Put A 1; Put B 2` at capacity 2, reading `A`. -/
theorem Get_hit_witness :
    Reachable 2 (run (NewLRUCache 2 : LRUCache Nat) [Op.put "A" (some 1), Op.put "B" (some 2)]) ∧
    held (run (NewLRUCache 2 : LRUCache Nat) [Op.put "A" (some 1), Op.put "B" (some 2)]) "A" ∧
    ∃ p v, mapLookup (run (NewLRUCache 2 : LRUCache Nat)
        [Op.put "A" (some 1), Op.put "B" (some 2)]).cache "A" = some p ∧
      assocValue (entries (run (NewLRUCache 2 : LRUCache Nat)
        [Op.put "A" (some 1), Op.put "B" (some 2)])) "A" = some v ∧
      (Get (run (NewLRUCache 2 : LRUCache Nat)
        [Op.put "A" (some 1), Op.put "B" (some 2)]) "A").1 = (v, true) ∧
      (Get (run (NewLRUCache 2 : LRUCache Nat)
        [Op.put "A" (some 1), Op.put "B" (some 2)]) "A").2.hits =
        (run (NewLRUCache 2 : LRUCache Nat) [Op.put "A" (some 1), Op.put "B" (some 2)]).hits + 1 ∧
      (Get (run (NewLRUCache 2 : LRUCache Nat)
        [Op.put "A" (some 1), Op.put "B" (some 2)]) "A").2.misses =
        (run (NewLRUCache 2 : LRUCache Nat) [Op.put "A" (some 1), Op.put "B" (some 2)]).misses ∧
      (Get (run (NewLRUCache 2 : LRUCache Nat)
        [Op.put "A" (some 1), Op.put "B" (some 2)]) "A").2.list =
        p :: (run (NewLRUCache 2 : LRUCache Nat)
          [Op.put "A" (some 1), Op.put "B" (some 2)]).list.erase p ∧
      entries (Get (run (NewLRUCache 2 : LRUCache Nat)
        [Op.put "A" (some 1), Op.put "B" (some 2)]) "A").2 =
        ("A", v) :: (entries (run (NewLRUCache 2 : LRUCache Nat)
          [Op.put "A" (some 1), Op.put "B" (some 2)])).filter (fun kv => decide (kv.1 ≠ "A")) ∧
      (Get (run (NewLRUCache 2 : LRUCache Nat)
        [Op.put "A" (some 1), Op.put "B" (some 2)]) "A").2.cache =
        (run (NewLRUCache 2 : LRUCache Nat) [Op.put "A" (some 1), Op.put "B" (some 2)]).cache ∧
      (Get (run (NewLRUCache 2 : LRUCache Nat)
        [Op.put "A" (some 1), Op.put "B" (some 2)]) "A").2.heap =
        (run (NewLRUCache 2 : LRUCache Nat) [Op.put "A" (some 1), Op.put "B" (some 2)]).heap :=
  ⟨⟨_, rfl⟩, by decide, Get_hit 2 _ ⟨_, rfl⟩ "A" (by decide)⟩

/-- C4 (Get miss). In every state (reachable or not) in which key `k` is not
held, `Get k` returns `(nil, false)`, increases `misses` by exactly 1, leaves
`hits` unchanged, and leaves the index, the recency list and the memory, hence
membership, values and order, unchanged. -/
theorem Get_miss (s : LRUCache V) (k : String) (hk : ¬ held s k) :
    (Get s k).1 = (none, false) ∧
    (Get s k).2.misses = s.misses + 1 ∧
    (Get s k).2.hits = s.hits ∧
    (Get s k).2.cache = s.cache ∧
    (Get s k).2.list = s.list ∧
    (Get s k).2.heap = s.heap ∧
    entries (Get s k).2 = entries s := by
  have hl := (not_held_iff s k).1 hk
  simp [Get, hl, entries]

/-- C4 on the state after `Put A 1; Put B 2` at capacity 2, reading `Z`. -/
theorem Get_miss_witness :
    ¬ held (run (NewLRUCache 2 : LRUCache Nat) [Op.put "A" (some 1), Op.put "B" (some 2)]) "Z" ∧
    ((Get (run (NewLRUCache 2 : LRUCache Nat)
        [Op.put "A" (some 1), Op.put "B" (some 2)]) "Z").1 = (none, false) ∧
    (Get (run (NewLRUCache 2 : LRUCache Nat)
        [Op.put "A" (some 1), Op.put "B" (some 2)]) "Z").2.misses =
      (run (NewLRUCache 2 : LRUCache Nat) [Op.put "A" (some 1), Op.put "B" (some 2)]).misses + 1 ∧
    (Get (run (NewLRUCache 2 : LRUCache Nat)
        [Op.put "A" (some 1), Op.put "B" (some 2)]) "Z").2.hits =
      (run (NewLRUCache 2 : LRUCache Nat) [Op.put "A" (some 1), Op.put "B" (some 2)]).hits ∧
    (Get (run (NewLRUCache 2 : LRUCache Nat)
        [Op.put "A" (some 1), Op.put "B" (some 2)]) "Z").2.cache =
      (run (NewLRUCache 2 : LRUCache Nat) [Op.put "A" (some 1), Op.put "B" (some 2)]).cache ∧
    (Get (run (NewLRUCache 2 : LRUCache Nat)
        [Op.put "A" (some 1), Op.put "B" (some 2)]) "Z").2.list =
      (run (NewLRUCache 2 : LRUCache Nat) [Op.put "A" (some 1), Op.put "B" (some 2)]).list ∧
    (Get (run (NewLRUCache 2 : LRUCache Nat)
        [Op.put "A" (some 1), Op.put "B" (some 2)]) "Z").2.heap =
      (run (NewLRUCache 2 : LRUCache Nat) [Op.put "A" (some 1), Op.put "B" (some 2)]).heap ∧
    entries (Get (run (NewLRUCache 2 : LRUCache Nat)
        [Op.put "A" (some 1), Op.put "B" (some 2)]) "Z").2 =
      entries (run (NewLRUCache 2 : LRUCache Nat) [Op.put "A" (some 1), Op.put "B" (some 2)])) :=
  ⟨by decide, Get_miss _ "Z" (by decide)⟩

/-! ## `Put` -/

/-- C6 (Put on a held key). In every state reachable from `NewLRUCache C` in
which key `k` is held, `Put k v` replaces the value of `k` by `v`, moves the
node of `k` to the front of the recency list keeping the relative order of the
others, leaves the index (so the set of held keys and the size) and the list
length unchanged, leaves what `Get` returns for every other key unchanged, and
leaves `hits` and `misses` unchanged. -/
theorem Put_held (C : Int) (s : LRUCache V) (hr : Reachable C s) (k : String)
    (v : Option V) (hk : held s k) :
    entries (Put s k v) = (k, v) :: (entries s).filter (fun kv => decide (kv.1 ≠ k)) ∧
    (Get (Put s k v) k).1 = (v, true) ∧
    (Put s k v).cache = s.cache ∧
    (∀ k', held (Put s k v) k' ↔ held s k') ∧
    Len (Put s k v).list = Len s.list ∧
    (∀ k', k' ≠ k → (Get (Put s k v) k').1 = (Get s k').1) ∧
    (Put s k v).hits = s.hits ∧
    (Put s k v).misses = s.misses := by
  have hw := hr.wf
  have hw' := WF_Put hw k v
  obtain ⟨p, hp⟩ := Option.isSome_iff_exists.1 hk
  have h0 : s.capacity ≠ 0 := by
    intro h0
    have hb := hw.bound_nonneg (by omega)
    have hmem := (hw.lookup hp).1
    have := List.length_pos_of_mem hmem
    omega
  have hmemk : k ∈ (entries s).map Prod.fst := (held_iff_mem_listKeys hw k).1 hk
  have hent : entries (Put s k v) = (k, v) :: dropKey (entries s) k := by
    rw [entries_Put hw, putEntries, if_neg h0, if_pos hmemk]
  have hcache : (Put s k v).cache = s.cache := by rw [Put_of_held h0 hp]
  refine ⟨hent, ?_, hcache, ?_, ?_, ?_, Put_hits s k v, Put_misses s k v⟩
  · rw [Get_result hw', hent]
    simp [assocValue]
  · intro k'
    unfold held
    rw [hcache]
  · rw [Put_of_held h0 hp]
    exact (MoveToFront_perm s.list p).length_eq
  · intro k' hne
    rw [Get_result hw', Get_result hw, hent]
    have hne' : ¬ k = k' := fun e => hne e.symm
    simp only [assocValue, hne', if_false, assocValue_dropKey _ hne]

/-- C6 on `sampleAB`, writing `A` again. -/
theorem Put_held_witness :
    Reachable 2 sampleAB ∧ held sampleAB "A" ∧
    (entries (Put sampleAB "A" (some 7)) =
      ("A", some 7) :: (entries sampleAB).filter (fun kv => decide (kv.1 ≠ "A")) ∧
    (Get (Put sampleAB "A" (some 7)) "A").1 = (some 7, true) ∧
    (Put sampleAB "A" (some 7)).cache = sampleAB.cache ∧
    (∀ k', held (Put sampleAB "A" (some 7)) k' ↔ held sampleAB k') ∧
    Len (Put sampleAB "A" (some 7)).list = Len sampleAB.list ∧
    (∀ k', k' ≠ "A" → (Get (Put sampleAB "A" (some 7)) k').1 = (Get sampleAB k').1) ∧
    (Put sampleAB "A" (some 7)).hits = sampleAB.hits ∧
    (Put sampleAB "A" (some 7)).misses = sampleAB.misses) :=
  ⟨⟨_, rfl⟩, by decide, Put_held 2 sampleAB ⟨_, rfl⟩ "A" (some 7) (by decide)⟩

/-- C7 (Put of an absent key with spare capacity). In every state reachable
from `NewLRUCache C` whose size is below the capacity and in which key `k` is
not held, `Put k v` allocates one node for `(k, v)`, links it at the front of
the recency list and registers it in the index; the size grows by exactly 1, no
entry is removed, the previously held entries keep their order and values, and
`hits` and `misses` are unchanged. -/
theorem Put_absent_spare (C : Int) (s : LRUCache V) (hr : Reachable C s) (k : String)
    (v : Option V) (hk : ¬ held s k) (hroom : (Len s.list : Int) < s.capacity) :
    entries (Put s k v) = (k, v) :: entries s ∧
    (Put s k v).list = s.heap.length :: s.list ∧
    (Put s k v).cache = (k, s.heap.length) :: s.cache ∧
    Len (Put s k v).list = Len s.list + 1 ∧
    (indexKeys (Put s k v)).length = (indexKeys s).length + 1 ∧
    (Get (Put s k v) k).1 = (v, true) ∧
    (∀ k', k' ≠ k → (Get (Put s k v) k').1 = (Get s k').1) ∧
    (Put s k v).hits = s.hits ∧
    (Put s k v).misses = s.misses := by
  have hw := hr.wf
  have hw' := WF_Put hw k v
  have hl := (not_held_iff s k).1 hk
  unfold Len at hroom
  have h0 : s.capacity ≠ 0 := by omega
  have hev : evict s = s := by
    unfold evict Len
    rw [if_neg (by omega)]
  have hnot : k ∉ (entries s).map Prod.fst := fun hm => hk ((held_iff_mem_listKeys hw k).2 hm)
  have hent : entries (Put s k v) = (k, v) :: entries s := by
    have hlen := entries_length hw
    rw [entries_Put hw, putEntries, if_neg h0, if_neg hnot, if_neg (by omega)]
  have hput := Put_of_absent h0 hl v
  rw [hev] at hput
  refine ⟨hent, ?_, ?_, ?_, ?_, ?_, ?_, Put_hits s k v, Put_misses s k v⟩
  · rw [hput]
  · rw [hput]
  · rw [hput]; rfl
  · rw [hput]; simp [indexKeys]
  · rw [Get_result hw', hent]
    simp [assocValue]
  · intro k' hne
    rw [Get_result hw', Get_result hw, hent]
    have hne' : ¬ k = k' := fun e => hne e.symm
    simp only [assocValue, hne', if_false]

/-- C7 on `sampleSpare`, writing the new key `C`. -/
theorem Put_absent_spare_witness :
    Reachable 3 sampleSpare ∧ ¬ held sampleSpare "C" ∧
    (Len sampleSpare.list : Int) < sampleSpare.capacity ∧
    (entries (Put sampleSpare "C" (some 3)) = ("C", some 3) :: entries sampleSpare ∧
    (Put sampleSpare "C" (some 3)).list = sampleSpare.heap.length :: sampleSpare.list ∧
    (Put sampleSpare "C" (some 3)).cache = ("C", sampleSpare.heap.length) :: sampleSpare.cache ∧
    Len (Put sampleSpare "C" (some 3)).list = Len sampleSpare.list + 1 ∧
    (indexKeys (Put sampleSpare "C" (some 3))).length = (indexKeys sampleSpare).length + 1 ∧
    (Get (Put sampleSpare "C" (some 3)) "C").1 = (some 3, true) ∧
    (∀ k', k' ≠ "C" → (Get (Put sampleSpare "C" (some 3)) k').1 = (Get sampleSpare k').1) ∧
    (Put sampleSpare "C" (some 3)).hits = sampleSpare.hits ∧
    (Put sampleSpare "C" (some 3)).misses = sampleSpare.misses) :=
  ⟨⟨_, rfl⟩, by decide, by decide,
    Put_absent_spare 3 sampleSpare ⟨_, rfl⟩ "C" (some 3) (by decide) (by decide)⟩

/-! ## Capacity 0 -/

theorem run_zero (ops : List (Op V)) :
    ∃ m : Int, run (NewLRUCache 0 : LRUCache V) ops =
      { capacity := 0, cache := [], list := [], hits := 0, misses := m, heap := [] } := by
  have key : ∀ (ops : List (Op V)) (m : Int), ∃ m' : Int,
      run ({ capacity := 0, cache := [], list := [], hits := 0, misses := m, heap := [] } :
        LRUCache V) ops =
      { capacity := 0, cache := [], list := [], hits := 0, misses := m', heap := [] } := by
    intro ops
    induction ops with
    | nil => intro m; exact ⟨m, rfl⟩
    | cons op ops ih =>
      intro m
      cases op with
      | get key => exact ih (m + 1)
      | put key value => exact ih m
  exact key ops 0

/-- C8 (zero capacity). After any sequence of `Put`/`Get` calls on
`NewLRUCache 0`: every `Put k v` leaves the whole state unchanged, the index
and the recency list are empty, every `Get k` returns `(nil, false)`, and
`hits` is 0. -/
theorem zero_capacity (ops : List (Op V)) (k : String) (v : Option V) :
    Put (run (NewLRUCache 0) ops) k v = run (NewLRUCache 0) ops ∧
    (run (NewLRUCache 0 : LRUCache V) ops).cache = [] ∧
    (run (NewLRUCache 0 : LRUCache V) ops).list = [] ∧
    entries (run (NewLRUCache 0 : LRUCache V) ops) = [] ∧
    (Get (run (NewLRUCache 0 : LRUCache V) ops) k).1 = (none, false) ∧
    (run (NewLRUCache 0 : LRUCache V) ops).hits = 0 ∧
    (Get (run (NewLRUCache 0 : LRUCache V) ops) k).2.hits = 0 := by
  obtain ⟨m, hm⟩ := run_zero ops
  rw [hm]
  refine ⟨rfl, rfl, rfl, rfl, rfl, rfl, rfl⟩

/-! ## Recency order -/

theorem lastTouch_snoc (log : List (Option String)) (x : Option String) (k : String) :
    lastTouch (log ++ [x]) k = if x = some k then some log.length else lastTouch log k := by
  simp [lastTouch, lastTouchRev]

theorem lastTouchRev_lt {r : List (Option String)} {k : String} {t : Nat}
    (h : lastTouchRev r k = some t) : t < r.length := by
  induction r with
  | nil => simp [lastTouchRev] at h
  | cons x older ih =>
    by_cases hx : x = some k
    · simp only [lastTouchRev, hx, if_true, Option.some.injEq] at h
      subst h; simp
    · simp only [lastTouchRev, hx, if_false] at h
      have := ih h
      simp only [List.length_cons]
      omega

theorem lastTouch_lt {log : List (Option String)} {k : String} {t : Nat}
    (h : lastTouch log k = some t) : t < log.length := by
  have := lastTouchRev_lt h
  simpa using this

/-- What `lastTouch` computes: position `t` of the log records a touch of `k`
and no later position does. -/
theorem lastTouch_eq_some_iff (log : List (Option String)) (k : String) (t : Nat) :
    lastTouch log k = some t ↔
      log[t]? = some (some k) ∧ ∀ j, t < j → log[j]? ≠ some (some k) := by
  induction log using List.reverseRecOn generalizing t with
  | nil => simp [lastTouch, lastTouchRev]
  | append_singleton log x ih =>
    rw [lastTouch_snoc]
    by_cases hx : x = some k
    · simp only [hx, if_true, Option.some.injEq]
      constructor
      · intro e
        subst e
        refine ⟨List.getElem?_concat_length log (some k), ?_⟩
        intro j hj
        rw [List.getElem?_eq_none (by simp; omega)]
        simp
      · rintro ⟨h1, h2⟩
        by_contra hne
        have hlt : t < (log ++ [some k]).length := (List.getElem?_eq_some_iff.1 h1).1
        simp only [List.length_append, List.length_singleton] at hlt
        have hlt' : t < log.length := by omega
        exact h2 log.length hlt' (List.getElem?_concat_length log (some k))
    · simp only [hx, if_false]
      rw [ih]
      constructor
      · rintro ⟨h1, h2⟩
        have hlt : t < log.length := (List.getElem?_eq_some_iff.1 h1).1
        refine ⟨by rw [List.getElem?_append_left hlt]; exact h1, ?_⟩
        intro j hj
        by_cases hjl : j < log.length
        · rw [List.getElem?_append_left hjl]; exact h2 j hj
        · by_cases hje : j = log.length
          · subst hje
            rw [List.getElem?_concat_length]
            intro e
            exact hx (Option.some.inj e)
          · rw [List.getElem?_eq_none (by simp; omega)]
            simp
      · rintro ⟨h1, h2⟩
        have hlt : t < (log ++ [x]).length := (List.getElem?_eq_some_iff.1 h1).1
        simp only [List.length_append, List.length_singleton] at hlt
        have hlt' : t < log.length := by
          by_contra hge
          have : t = log.length := by omega
          subst this
          rw [List.getElem?_concat_length] at h1
          exact hx (Option.some.inj h1)
        refine ⟨by rw [List.getElem?_append_left hlt'] at h1; exact h1, ?_⟩
        intro j hj
        by_cases hjl : j < log.length
        · have := h2 j hj
          rw [List.getElem?_append_left hjl] at this
          exact this
        · rw [List.getElem?_eq_none (by omega)]
          simp

theorem RecencyOrdered_nil (log : List (Option String)) : RecencyOrdered log [] :=
  ⟨List.Pairwise.nil, by simp⟩

theorem recency_idle {log : List (Option String)} {keys : List String}
    (h : RecencyOrdered log keys) : RecencyOrdered (log ++ [none]) keys := by
  unfold RecencyOrdered at *
  simpa [lastTouch_snoc] using h

theorem recency_touch {log : List (Option String)} {keys sub : List String} {k : String}
    (h : RecencyOrdered log keys) (hsub : sub.Sublist keys) (hk : k ∉ sub) :
    RecencyOrdered (log ++ [some k]) (k :: sub) := by
  have hne : ∀ b ∈ sub, ¬ (some k = some b) := by
    intro b hb e
    exact hk (Option.some.inj e ▸ hb)
  have hsame : ∀ b ∈ sub, lastTouch (log ++ [some k]) b = lastTouch log b := by
    intro b hb
    rw [lastTouch_snoc, if_neg (hne b hb)]
  have hk' : lastTouch (log ++ [some k]) k = some log.length := by
    rw [lastTouch_snoc, if_pos rfl]
  constructor
  · rw [List.pairwise_cons]
    constructor
    · intro b hb
      obtain ⟨t, ht⟩ := h.2 b (hsub.subset hb)
      exact ⟨log.length, t, hk', by rw [hsame b hb, ht], lastTouch_lt ht⟩
    · refine (h.1.sublist hsub).imp_of_mem ?_
      intro a b ha hb hab
      rw [hsame a ha, hsame b hb]
      exact hab
  · intro b hb
    rcases List.mem_cons.1 hb with e | e
    · subst e; exact ⟨_, hk'⟩
    · rw [hsame b e]
      exact h.2 b (hsub.subset e)

theorem dropKey_keys_sublist (es : List (String × Option V)) (k : String) :
    ((dropKey es k).map Prod.fst).Sublist (es.map Prod.fst) :=
  (List.filter_sublist es).map Prod.fst

theorem not_mem_dropKey_keys (es : List (String × Option V)) (k : String) :
    k ∉ (dropKey es k).map Prod.fst := by
  intro hm
  obtain ⟨kv, hkv, he⟩ := List.mem_map.1 hm
  have := (List.mem_filter.1 hkv).2
  simp [he] at this

theorem recency_step {c : LRUCache V} (h : WF c) {log : List (Option String)}
    (hr : RecencyOrdered log (listKeys c)) (op : Op V) :
    RecencyOrdered (log ++ [touchOf c op]) (listKeys (step c op)) := by
  unfold listKeys at *
  rw [entries_step h]
  cases op with
  | get k =>
    simp only [touchOf, stepEntries, touchEntries, Get_result h]
    cases hv : assocValue (entries c) k with
    | none => exact recency_idle hr
    | some v =>
      exact recency_touch hr (dropKey_keys_sublist _ k) (not_mem_dropKey_keys _ k)
  | put k v =>
    simp only [touchOf, stepEntries, putEntries]
    by_cases h0 : c.capacity = 0
    · have hb := h.bound_nonneg (by omega)
      have hlen := entries_length h
      have hnil : entries c = [] := List.eq_nil_of_length_eq_zero (by omega)
      rw [if_pos h0, hnil]
      exact RecencyOrdered_nil _
    · rw [if_neg h0]
      by_cases hm : k ∈ (entries c).map Prod.fst
      · rw [if_pos hm]
        exact recency_touch hr (dropKey_keys_sublist _ k) (not_mem_dropKey_keys _ k)
      · rw [if_neg hm]
        by_cases hfull : ((entries c).length : Int) ≥ c.capacity
        · rw [if_pos hfull]
          have hsub : ((entries c).dropLast.map Prod.fst).Sublist ((entries c).map Prod.fst) :=
            (List.dropLast_sublist _).map Prod.fst
          exact recency_touch hr hsub (fun hx => hm (hsub.subset hx))
        · rw [if_neg hfull]
          exact recency_touch hr (List.Sublist.refl _) hm

theorem recency_run {c : LRUCache V} (h : WF c) (log : List (Option String))
    (hr : RecencyOrdered log (listKeys c)) (ops : List (Op V)) :
    RecencyOrdered (log ++ touchLog c ops) (listKeys (run c ops)) := by
  induction ops generalizing c log with
  | nil => simpa [touchLog, run] using hr
  | cons op ops ih =>
    have := ih (WF_step h op) (log ++ [touchOf c op]) (recency_step h hr op)
    simpa [touchLog, run] using this

/-- The recency list of a reachable state is ordered by last touch. -/
theorem recency_reachable (C : Int) (ops : List (Op V)) :
    RecencyOrdered (touchLog (NewLRUCache C) ops) (listKeys (run (NewLRUCache C) ops)) := by
  have := recency_run (WF_NewLRUCache C) [] (RecencyOrdered_nil _) ops
  simpa using this

/-! ## Eviction of the least recently used key -/

theorem assocValue_append_ne (init : List (String × Option V)) {e k' : String}
    (ve : Option V) (h : k' ≠ e) :
    assocValue (init ++ [(e, ve)]) k' = assocValue init k' := by
  have h' : ¬ e = k' := fun x => h x.symm
  induction init with
  | nil => simp [assocValue, h']
  | cons kv rest ih =>
    obtain ⟨a, w⟩ := kv
    show (if a = k' then some w else assocValue (rest ++ [(e, ve)]) k') =
      if a = k' then some w else assocValue rest k'
    rw [ih]

theorem exists_back_of_length_pos (es : List (String × Option V)) (h : 0 < es.length) :
    ∃ init e ve, es = init ++ [(e, ve)] := by
  have hne : es ≠ [] := List.ne_nil_of_length_pos h
  exact ⟨es.dropLast, (es.getLast hne).1, (es.getLast hne).2,
    (List.dropLast_concat_getLast hne).symm⟩

/-- C2 (LRU eviction). For every capacity `C ≥ 1` and every state `s` reached
from `NewLRUCache C` by a call sequence `ops` that holds `C` entries, `Put k v`
with `k` absent removes exactly one entry: the key `e` at the back of the
recency list, which is held and whose most recent touch (a `Put` of it or a
`Get` hit on it) is older than that of every other held key.  Every other held
key stays held with its value, `k` is inserted at the front with value `v`, and
the size stays `C`. -/
theorem Put_evicts_lru (C : Int) (hC : 1 ≤ C) (ops : List (Op V)) (s : LRUCache V)
    (hs : run (NewLRUCache C) ops = s) (k : String) (v : Option V)
    (hfull : (Len s.list : Int) = C) (hk : ¬ held s k) :
    ∃ e ve te,
      entries s = (entries s).dropLast ++ [(e, ve)] ∧
      held s e ∧
      lastTouch (touchLog (NewLRUCache C) ops) e = some te ∧
      (∀ k', held s k' → k' ≠ e →
        ∃ t', lastTouch (touchLog (NewLRUCache C) ops) k' = some t' ∧ te < t') ∧
      entries (Put s k v) = (k, v) :: (entries s).dropLast ∧
      ¬ held (Put s k v) e ∧
      (∀ k', held (Put s k v) k' ↔ k' = k ∨ (held s k' ∧ k' ≠ e)) ∧
      (∀ k', held s k' → k' ≠ e → (Get (Put s k v) k').1 = (Get s k').1) ∧
      (Get (Put s k v) k).1 = (v, true) ∧
      (Len (Put s k v).list : Int) = C ∧
      ((indexKeys (Put s k v)).length : Int) = C := by
  subst hs
  have hw : WF (run (NewLRUCache C : LRUCache V) ops) := WF_run (WF_NewLRUCache C) ops
  have hw' := WF_Put hw k v
  have hrec := recency_reachable C ops
  have hcap : (run (NewLRUCache C : LRUCache V) ops).capacity = C := by
    rw [run_capacity]; rfl
  have hlen := entries_length hw
  unfold Len at hfull
  obtain ⟨init, e, ve, hes⟩ :=
    exists_back_of_length_pos (entries (run (NewLRUCache C : LRUCache V) ops)) (by omega)
  have hdl : (entries (run (NewLRUCache C : LRUCache V) ops)).dropLast = init := by
    rw [hes]; simp
  have hkeys : listKeys (run (NewLRUCache C : LRUCache V) ops) = init.map Prod.fst ++ [e] := by
    unfold listKeys; rw [hes]; simp
  have hnd := listKeys_nodup hw
  rw [hkeys] at hnd hrec
  have he_notin : e ∉ init.map Prod.fst := by
    intro hm
    exact (List.nodup_append.1 hnd).2.2 hm (List.mem_singleton_self e)
  have hheld_iff : ∀ k', held (run (NewLRUCache C : LRUCache V) ops) k' ↔
      k' ∈ init.map Prod.fst ∨ k' = e := by
    intro k'
    rw [held_iff_mem_listKeys hw, hkeys]
    simp
  have hk_notin : k ∉ (entries (run (NewLRUCache C : LRUCache V) ops)).map Prod.fst :=
    fun hm => hk ((held_iff_mem_listKeys hw k).2 hm)
  have hent : entries (Put (run (NewLRUCache C : LRUCache V) ops) k v) = (k, v) :: init := by
    rw [entries_Put hw, putEntries, hcap, if_neg (by omega), if_neg hk_notin,
      if_pos (by omega), hdl]
  have hkeys' : listKeys (Put (run (NewLRUCache C : LRUCache V) ops) k v) =
      k :: init.map Prod.fst := by
    unfold listKeys; rw [hent]; simp
  obtain ⟨te, hte⟩ := hrec.2 e (by simp)
  have hlen' := entries_length hw'
  have hleninit : init.length + 1 = (run (NewLRUCache C : LRUCache V) ops).list.length := by
    rw [← hlen, hes]; simp
  refine ⟨e, ve, te, ?_, ?_, hte, ?_, ?_, ?_, ?_, ?_, ?_, ?_, ?_⟩
  · rw [hdl]; exact hes
  · exact (hheld_iff e).2 (Or.inr rfl)
  · intro k' hk' hne
    have hmem : k' ∈ init.map Prod.fst := by
      rcases (hheld_iff k').1 hk' with h | h
      · exact h
      · exact absurd h hne
    obtain ⟨ta, tb, hta, htb, hlt⟩ :=
      (List.pairwise_append.1 hrec.1).2.2 k' hmem e (List.mem_singleton_self e)
    rw [hte] at htb
    cases htb
    exact ⟨ta, hta, hlt⟩
  · rw [hdl]; exact hent
  · rw [held_iff_mem_listKeys hw', hkeys']
    intro hm
    rcases List.mem_cons.1 hm with h | h
    · exact hk (h ▸ (hheld_iff e).2 (Or.inr rfl))
    · exact he_notin h
  · intro k'
    rw [held_iff_mem_listKeys hw', hkeys', hheld_iff, List.mem_cons]
    constructor
    · rintro (h | h)
      · exact Or.inl h
      · exact Or.inr ⟨Or.inl h, fun x => he_notin (x ▸ h)⟩
    · rintro (h | ⟨h | h, hne⟩)
      · exact Or.inl h
      · exact Or.inr h
      · exact absurd h hne
  · intro k' hk' hne
    have hkk' : ¬ k = k' := fun x => hk (x ▸ hk')
    rw [Get_result hw', Get_result hw, hent, hes, assocValue_append_ne _ _ hne]
    simp only [assocValue, hkk', if_false]
  · rw [Get_result hw', hent]
    simp [assocValue]
  · unfold Len
    rw [← hlen', hent]
    simp only [List.length_cons]
    omega
  · unfold indexKeys
    rw [List.length_map, hw'.length_eq, ← hlen', hent]
    simp only [List.length_cons]
    omega

/-- C2 on `sampleFull` (capacity 3, calls `Put A; Put B; Get A; Put C`),
writing the new key `D`: the evicted key is `B`. -/
theorem Put_evicts_lru_witness :
    (1 : Int) ≤ 3 ∧
    run (NewLRUCache 3)
      [Op.put "A" (some 1), Op.put "B" (some 2), Op.get "A", Op.put "C" (some 3)] = sampleFull ∧
    (Len sampleFull.list : Int) = 3 ∧ ¬ held sampleFull "D" ∧
    ∃ e ve te,
      entries sampleFull = (entries sampleFull).dropLast ++ [(e, ve)] ∧
      held sampleFull e ∧
      lastTouch (touchLog (NewLRUCache 3 : LRUCache Nat)
        [Op.put "A" (some 1), Op.put "B" (some 2), Op.get "A", Op.put "C" (some 3)]) e =
        some te ∧
      (∀ k', held sampleFull k' → k' ≠ e →
        ∃ t', lastTouch (touchLog (NewLRUCache 3 : LRUCache Nat)
          [Op.put "A" (some 1), Op.put "B" (some 2), Op.get "A", Op.put "C" (some 3)]) k' =
          some t' ∧ te < t') ∧
      entries (Put sampleFull "D" (some 4)) = ("D", some 4) :: (entries sampleFull).dropLast ∧
      ¬ held (Put sampleFull "D" (some 4)) e ∧
      (∀ k', held (Put sampleFull "D" (some 4)) k' ↔
        k' = "D" ∨ (held sampleFull k' ∧ k' ≠ e)) ∧
      (∀ k', held sampleFull k' → k' ≠ e →
        (Get (Put sampleFull "D" (some 4)) k').1 = (Get sampleFull k').1) ∧
      (Get (Put sampleFull "D" (some 4)) "D").1 = (some 4, true) ∧
      (Len (Put sampleFull "D" (some 4)).list : Int) = 3 ∧
      ((indexKeys (Put sampleFull "D" (some 4))).length : Int) = 3 :=
  ⟨by decide, rfl, by decide, by decide,
    Put_evicts_lru 3 (by decide) _ sampleFull rfl "D" (some 4) (by decide) (by decide)⟩

/-! ## Stored values -/

theorem lastPut_snoc_put (h : List (Op V)) (k0 : String) (v0 : Option V) (k : String) :
    lastPut (h ++ [Op.put k0 v0]) k = if k0 = k then some v0 else lastPut h k := by
  simp [lastPut, lastPutRev]

theorem lastPut_snoc_get (h : List (Op V)) (k0 k : String) :
    lastPut (h ++ [Op.get k0]) k = lastPut h k := by
  simp [lastPut, lastPutRev]

theorem assocValue_touchEntries (es : List (String × Option V)) (k0 k : String) :
    assocValue (touchEntries es k0) k = assocValue es k := by
  unfold touchEntries
  cases hv : assocValue es k0 with
  | none => rfl
  | some v0 =>
    by_cases hk : k0 = k
    · subst hk
      simp [assocValue, hv]
    · have hk' : k ≠ k0 := fun e => hk e.symm
      show (if k0 = k then some v0 else assocValue (dropKey es k0) k) = _
      rw [if_neg hk, assocValue_dropKey _ hk']

theorem assocValue_dropLast {es : List (String × Option V)} {k : String} {v : Option V}
    (h : assocValue es.dropLast k = some v) : assocValue es k = some v := by
  induction es with
  | nil => simp [assocValue] at h
  | cons x rest ih =>
    cases rest with
    | nil => simp [assocValue] at h
    | cons y r =>
      obtain ⟨a, w⟩ := x
      rw [List.dropLast_cons₂] at h
      by_cases ha : a = k
      · simp only [assocValue, ha, if_true] at h ⊢
        exact h
      · simp only [assocValue, ha, if_false] at h ⊢
        exact ih h

/-- Every stored value is the one passed to the latest `Put` of its key, for a
state `c` and the calls `h` made so far. -/
theorem written_step {c : LRUCache V} (hw : WF c) {h : List (Op V)}
    (hinv : ∀ k v, assocValue (entries c) k = some v → lastPut h k = some v) (op : Op V) :
    ∀ k v, assocValue (entries (step c op)) k = some v → lastPut (h ++ [op]) k = some v := by
  intro k v hv
  rw [entries_step hw] at hv
  cases op with
  | get k0 =>
    rw [lastPut_snoc_get]
    simp only [stepEntries, assocValue_touchEntries] at hv
    exact hinv k v hv
  | put k0 v0 =>
    rw [lastPut_snoc_put]
    simp only [stepEntries, putEntries] at hv
    by_cases h0 : c.capacity = 0
    · have hb := hw.bound_nonneg (by omega)
      have hlen := entries_length hw
      have hnil : entries c = [] := List.eq_nil_of_length_eq_zero (by omega)
      rw [if_pos h0, hnil] at hv
      simp [assocValue] at hv
    · rw [if_neg h0] at hv
      by_cases hk : k0 = k
      · rw [if_pos hk]
        split at hv
        · simpa [assocValue, hk] using hv
        · split at hv
          · simpa [assocValue, hk] using hv
          · simpa [assocValue, hk] using hv
      · rw [if_neg hk]
        have hk' : k ≠ k0 := fun e => hk e.symm
        apply hinv
        split at hv
        · simp only [assocValue, hk, if_false, assocValue_dropKey _ hk'] at hv
          exact hv
        · split at hv
          · simp only [assocValue, hk, if_false] at hv
            exact assocValue_dropLast hv
          · simp only [assocValue, hk, if_false] at hv
            exact hv

theorem written_run {c : LRUCache V} (hw : WF c) (h : List (Op V))
    (hinv : ∀ k v, assocValue (entries c) k = some v → lastPut h k = some v)
    (ops : List (Op V)) :
    ∀ k v, assocValue (entries (run c ops)) k = some v → lastPut (h ++ ops) k = some v := by
  induction ops generalizing c h with
  | nil => simpa [run] using hinv
  | cons op ops ih =>
    have := ih (WF_step hw op) (h ++ [op]) (written_step hw hinv op)
    simpa [run] using this

theorem Get_Put_same {c : LRUCache V} (hw : WF c) (h0 : c.capacity ≠ 0) (k : String)
    (v : Option V) : (Get (Put c k v) k).1 = (v, true) := by
  have hv : assocValue (putEntries c.capacity (entries c) k v) k = some v := by
    rw [putEntries, if_neg h0]
    by_cases hm : k ∈ (entries c).map Prod.fst
    · rw [if_pos hm]; simp [assocValue]
    · rw [if_neg hm]
      by_cases hfull : ((entries c).length : Int) ≥ c.capacity
      · rw [if_pos hfull]; simp [assocValue]
      · rw [if_neg hfull]; simp [assocValue]
  rw [Get_result (WF_Put hw k v), entries_Put hw, hv]

/-- C5 (stored value is the latest written value). For every capacity `C ≥ 1`
and every state `s` reached from `NewLRUCache C` by a call sequence `ops`:
`Put k v` immediately followed by `Get k` returns `(v, true)`; every `Get k'`
that hits in `s` returns the value passed to the most recent `Put k' _` of
`ops`; and `Put k v1; Put k v2; Get k` returns `(v2, true)` while the second
`Put` changes neither the length of the recency list nor the number of index
keys. -/
theorem latest_written_value (C : Int) (hC : 1 ≤ C) (ops : List (Op V)) (s : LRUCache V)
    (hs : run (NewLRUCache C) ops = s) (k : String) (v v1 v2 : Option V) (k' : String) :
    (Get (Put s k v) k).1 = (v, true) ∧
    (∀ w, (Get s k').1 = (w, true) → lastPut ops k' = some w) ∧
    (Get (Put (Put s k v1) k v2) k).1 = (v2, true) ∧
    Len (Put (Put s k v1) k v2).list = Len (Put s k v1).list ∧
    (indexKeys (Put (Put s k v1) k v2)).length = (indexKeys (Put s k v1)).length := by
  subst hs
  have hw : WF (run (NewLRUCache C : LRUCache V) ops) := WF_run (WF_NewLRUCache C) ops
  have hcap : (run (NewLRUCache C : LRUCache V) ops).capacity = C := by
    rw [run_capacity]; rfl
  have h0 : (run (NewLRUCache C : LRUCache V) ops).capacity ≠ 0 := by omega
  have hw1 := WF_Put hw k v1
  have h01 : (Put (run (NewLRUCache C : LRUCache V) ops) k v1).capacity ≠ 0 := by
    have := step_capacity (run (NewLRUCache C : LRUCache V) ops) (Op.put k v1)
    simp only [step] at this
    rw [this]; exact h0
  have hheld : held (Put (run (NewLRUCache C : LRUCache V) ops) k v1) k := by
    have := Get_Put_same hw h0 k v1
    unfold Get at this
    unfold held
    cases hl : mapLookup (Put (run (NewLRUCache C : LRUCache V) ops) k v1).cache k with
    | none => rw [hl] at this; simp at this
    | some p => rfl
  obtain ⟨p, hp⟩ := Option.isSome_iff_exists.1 hheld
  refine ⟨Get_Put_same hw h0 k v, ?_, Get_Put_same hw1 h01 k v2, ?_, ?_⟩
  · intro w hget
    have hinv := written_run (WF_NewLRUCache C : WF (NewLRUCache C : LRUCache V)) []
      (by intro k v hv; simp [entries, NewLRUCache, assocValue] at hv) ops
    simp only [List.nil_append] at hinv
    apply hinv
    rw [Get_result hw] at hget
    cases hv : assocValue (entries (run (NewLRUCache C : LRUCache V) ops)) k' with
    | none => rw [hv] at hget; simp at hget
    | some x =>
      rw [hv] at hget
      simp only [Prod.mk.injEq, and_true] at hget
      rw [hget]
  · rw [Put_of_held h01 hp]
    exact (MoveToFront_perm _ p).length_eq
  · rw [Put_of_held h01 hp]
    rfl

/-- C5 at capacity 2 after `Put A 1; Put B 2`, reading `B` and rewriting `A`. -/
theorem latest_written_value_witness :
    (1 : Int) ≤ 2 ∧
    run (NewLRUCache 2) [Op.put "A" (some 1), Op.put "B" (some 2)] = sampleAB ∧
    ((Get (Put sampleAB "A" (some 5)) "A").1 = (some 5, true) ∧
    (∀ w, (Get sampleAB "B").1 = (w, true) →
      lastPut [Op.put "A" (some 1), Op.put "B" (some 2)] "B" = some w) ∧
    (Get (Put (Put sampleAB "A" (some 6)) "A" (some 7)) "A").1 = (some 7, true) ∧
    Len (Put (Put sampleAB "A" (some 6)) "A" (some 7)).list =
      Len (Put sampleAB "A" (some 6)).list ∧
    (indexKeys (Put (Put sampleAB "A" (some 6)) "A" (some 7))).length =
      (indexKeys (Put sampleAB "A" (some 6))).length) :=
  ⟨by decide, rfl,
    latest_written_value 2 (by decide) _ sampleAB rfl "A" (some 5) (some 6) (some 7) "B"⟩

/-! ## Insertion order without reads -/

theorem putAll_append (kvs : List (String × Option V)) (kv : String × Option V) :
    putAll (kvs ++ [kv]) = putAll kvs ++ [Op.put kv.1 kv.2] := by
  simp [putAll]

theorem foldl_putAll (C : Int) (hC : 1 ≤ C) (kvs : List (String × Option V))
    (hnd : (kvs.map Prod.fst).Nodup) :
    (putAll kvs).foldl (stepEntries C) [] = kvs.reverse.take C.toNat := by
  induction kvs using List.reverseRecOn with
  | nil => simp [putAll]
  | append_singleton init kv ih =>
    rw [List.map_append, List.nodup_append] at hnd
    have hkv : kv.1 ∉ init.map Prod.fst := by
      intro hm
      exact hnd.2.2 hm (by simp)
    have hpos : 0 < C.toNat := by omega
    rw [putAll_append, List.foldl_append, ih hnd.1, List.reverse_append]
    show putEntries C (init.reverse.take C.toNat) kv.1 kv.2 = _
    have hnot : kv.1 ∉ (init.reverse.take C.toNat).map Prod.fst := by
      intro hm
      obtain ⟨x, hx, he⟩ := List.mem_map.1 hm
      have hx' : x ∈ init := List.mem_reverse.1 (List.mem_of_mem_take hx)
      exact hkv (he ▸ List.mem_map_of_mem Prod.fst hx')
    rw [putEntries, if_neg (by omega), if_neg hnot]
    have hrhs : ([kv].reverse ++ init.reverse).take C.toNat =
        kv :: init.reverse.take (C.toNat - 1) := by
      simp only [List.reverse_singleton, List.singleton_append]
      exact List.take_cons hpos
    rw [hrhs]
    by_cases hfull : C.toNat ≤ init.length
    · have hlen : (init.reverse.take C.toNat).length = C.toNat := by
        simp; omega
      rw [if_pos (by rw [hlen]; omega)]
      congr 1
      by_cases heq : C.toNat = init.length
      · rw [List.take_of_length_le (by simp; omega), List.dropLast_eq_take]
        simp [heq]
      · exact List.dropLast_take (by simp; omega)
    · have hlen : (init.reverse.take C.toNat).length = init.length := by
        simp; omega
      rw [if_neg (by rw [hlen]; omega)]
      congr 1
      rw [List.take_of_length_le (by simp; omega), List.take_of_length_le (by simp; omega)]

theorem getElem_mem_take_iff {α : Type} {l : List α} (hnd : l.Nodup) (c j : Nat)
    (hj : j < l.length) : l[j] ∈ l.take c ↔ j < c := by
  rw [List.mem_take_iff_getElem]
  constructor
  · rintro ⟨i, hm, he⟩
    have hi : i < l.length := by omega
    have : i = j := (hnd.getElem_inj_iff).1 he
    omega
  · intro h
    exact ⟨j, by omega, rfl⟩

theorem Get_found_iff {c : LRUCache V} (k : String) : (Get c k).1.2 = true ↔ held c k := by
  unfold Get held
  cases mapLookup c.cache k <;> simp

/-- C9 (insertion-order eviction without reads). For every capacity `C ≥ 1`
and every list of pairs with pairwise distinct keys `k_1..k_n` written in that
order into `NewLRUCache C` with no `Get` in between, the recency list holds
exactly the last `min n C` pairs, newest first; so the `i`-th key (counted from
0 here) is retrievable, with its value, exactly when `n < i + 1 + C`, and a key
that was never written is not retrievable. -/
theorem insertion_order_eviction (C : Int) (hC : 1 ≤ C) (kvs : List (String × Option V))
    (hnd : (kvs.map Prod.fst).Nodup) (i : Nat) (hi : i < kvs.length) :
    entries (run (NewLRUCache C) (putAll kvs)) = kvs.reverse.take C.toNat ∧
    Len (run (NewLRUCache C) (putAll kvs)).list = min kvs.length C.toNat ∧
    (Get (run (NewLRUCache C) (putAll kvs)) (kvs[i]).1).1 =
      (if (kvs.length : Int) < i + 1 + C then ((kvs[i]).2, true) else (none, false)) ∧
    (((Get (run (NewLRUCache C) (putAll kvs)) (kvs[i]).1).1.2 = true) ↔
      (kvs.length : Int) < i + 1 + C) ∧
    (∀ k, k ∉ kvs.map Prod.fst →
      (Get (run (NewLRUCache C) (putAll kvs)) k).1 = (none, false)) := by
  have hw : WF (run (NewLRUCache C : LRUCache V) (putAll kvs)) :=
    WF_run (WF_NewLRUCache C) _
  have hent : entries (run (NewLRUCache C : LRUCache V) (putAll kvs)) =
      kvs.reverse.take C.toNat := by
    rw [entries_run (WF_NewLRUCache C)]
    exact foldl_putAll C hC kvs hnd
  have hkndp : kvs.Nodup := List.Nodup.of_map _ hnd
  have hrev : kvs.reverse.Nodup := List.nodup_reverse.2 hkndp
  have hidx : kvs.length - 1 - i < kvs.reverse.length := by simp; omega
  have hget : kvs.reverse[kvs.length - 1 - i] = kvs[i] := by
    rw [List.getElem_reverse]
    congr 1
    omega
  have hmem : kvs[i] ∈ kvs.reverse.take C.toNat ↔ (kvs.length : Int) < i + 1 + C := by
    rw [← hget, getElem_mem_take_iff hrev _ _ hidx]
    omega
  have hres : (Get (run (NewLRUCache C : LRUCache V) (putAll kvs)) (kvs[i]).1).1 =
      (if (kvs.length : Int) < i + 1 + C then ((kvs[i]).2, true) else (none, false)) := by
    rw [Get_result hw, hent]
    by_cases hc : (kvs.length : Int) < i + 1 + C
    · rw [if_pos hc]
      have hnd' : ((kvs.reverse.take C.toNat).map Prod.fst).Nodup := by
        have := listKeys_nodup hw
        unfold listKeys at this
        rw [hent] at this
        exact this
      have hval : assocValue (kvs.reverse.take C.toNat) (kvs[i]).1 = some (kvs[i]).2 :=
        assocValue_of_mem hnd' (hmem.2 hc)
      rw [hval]
    · rw [if_neg hc]
      have hnone : assocValue (kvs.reverse.take C.toNat) (kvs[i]).1 = none := by
        rw [assocValue_eq_none_iff]
        intro hm
        obtain ⟨x, hx, he⟩ := List.mem_map.1 hm
        have hx' : x ∈ kvs := List.mem_reverse.1 (List.mem_of_mem_take hx)
        have hxe : x = kvs[i] :=
          List.inj_on_of_nodup_map hnd hx' (List.getElem_mem _) he
        exact hc (hmem.1 (hxe ▸ hx))
      rw [hnone]
  refine ⟨hent, ?_, hres, ?_, ?_⟩
  · unfold Len
    rw [← entries_length hw, hent]
    simp [Nat.min_comm]
  · rw [hres]
    by_cases hc : (kvs.length : Int) < i + 1 + C
    · simp [hc]
    · simp [hc]
  · intro k hk
    rw [Get_result hw, hent]
    have hnone : assocValue (kvs.reverse.take C.toNat) k = none := by
      rw [assocValue_eq_none_iff]
      intro hm
      obtain ⟨x, hx, he⟩ := List.mem_map.1 hm
      have hx' : x ∈ kvs := List.mem_reverse.1 (List.mem_of_mem_take hx)
      exact hk (he ▸ List.mem_map_of_mem Prod.fst hx')
    rw [hnone]

/-- C9 at capacity 2 with the three keys `A`, `B`, `C` (so `n = C + 1`): the
first key is evicted. -/
theorem insertion_order_eviction_witness :
    (1 : Int) ≤ 2 ∧
    (([("A", some 1), ("B", some 2), ("C", some 3)] :
      List (String × Option Nat)).map Prod.fst).Nodup ∧
    0 < ([("A", some 1), ("B", some 2), ("C", some 3)] : List (String × Option Nat)).length ∧
    (entries (run (NewLRUCache 2) (putAll [("A", some 1), ("B", some 2), ("C", some 3)])) =
      ([("A", some 1), ("B", some 2), ("C", some 3)] :
        List (String × Option Nat)).reverse.take (2 : Int).toNat ∧
    Len (run (NewLRUCache 2) (putAll ([("A", some 1), ("B", some 2), ("C", some 3)] :
        List (String × Option Nat)))).list =
      min ([("A", some 1), ("B", some 2), ("C", some 3)] :
        List (String × Option Nat)).length (2 : Int).toNat ∧
    (Get (run (NewLRUCache 2) (putAll [("A", some 1), ("B", some 2), ("C", some 3)]))
        (([("A", some 1), ("B", some 2), ("C", some 3)] :
          List (String × Option Nat))[0]).1).1 =
      (if ((([("A", some 1), ("B", some 2), ("C", some 3)] :
          List (String × Option Nat)).length : Nat) : Int) < (0 : Nat) + 1 + 2
        then ((([("A", some 1), ("B", some 2), ("C", some 3)] :
          List (String × Option Nat))[0]).2, true)
        else (none, false)) ∧
    (((Get (run (NewLRUCache 2) (putAll [("A", some 1), ("B", some 2), ("C", some 3)]))
        (([("A", some 1), ("B", some 2), ("C", some 3)] :
          List (String × Option Nat))[0]).1).1.2 = true) ↔
      ((([("A", some 1), ("B", some 2), ("C", some 3)] :
          List (String × Option Nat)).length : Nat) : Int) < (0 : Nat) + 1 + 2) ∧
    (∀ k, k ∉ ([("A", some 1), ("B", some 2), ("C", some 3)] :
        List (String × Option Nat)).map Prod.fst →
      (Get (run (NewLRUCache 2) (putAll ([("A", some 1), ("B", some 2), ("C", some 3)] :
        List (String × Option Nat)))) k).1 = (none, false))) :=
  ⟨by decide, by decide, by decide,
    insertion_order_eviction 2 (by decide) [("A", some 1), ("B", some 2), ("C", some 3)]
      (by decide) 0 (by decide)⟩

/-! ## Access refreshes recency -/

theorem entries_run_New (C : Int) (ops : List (Op V)) :
    entries (run (NewLRUCache C) ops) = ops.foldl (stepEntries C) [] :=
  entries_run (WF_NewLRUCache C) ops

theorem dropKey_of_not_mem {es : List (String × Option V)} {k : String}
    (h : k ∉ es.map Prod.fst) : dropKey es k = es := by
  unfold dropKey
  rw [List.filter_eq_self]
  intro kv hkv
  have : kv.1 ≠ k := fun e => h (e ▸ List.mem_map_of_mem Prod.fst hkv)
  simpa using this

theorem touchEntries_front (es : List (String × Option V)) (k : String) (v : Option V)
    (h : k ∉ es.map Prod.fst) : touchEntries ((k, v) :: es) k = (k, v) :: es := by
  have hv : assocValue ((k, v) :: es) k = some v := by simp [assocValue]
  have hd : dropKey ((k, v) :: es) k = es := by
    have := dropKey_of_not_mem h
    simpa [dropKey] using this
  rw [touchEntries, hv]
  show (k, v) :: dropKey ((k, v) :: es) k = _
  rw [hd]

theorem foldl_get_front (C : Int) (es : List (String × Option V)) (k : String) (v : Option V)
    (h : k ∉ es.map Prod.fst) (m : Nat) :
    (List.replicate m (Op.get k)).foldl (stepEntries C) ((k, v) :: es) = (k, v) :: es := by
  induction m with
  | zero => rfl
  | succ m ih =>
    rw [List.replicate_succ, List.foldl_cons]
    show (List.replicate m (Op.get k)).foldl (stepEntries C) (touchEntries ((k, v) :: es) k) = _
    rw [touchEntries_front es k v h, ih]

/-- C10 (access refreshes recency). For every capacity `C ≥ 2`, after `Put` of
`C` pairwise distinct keys `k1, k2, k_3..k_C` (the pairs `rest` are those of
`k_3..k_C`) into `NewLRUCache C`, then `m ≥ 1` calls `Get k1`, then `Put` of a
new key `d`: the key `k2` is evicted (`Get k2` misses) while `k1`, each of
`k_3..k_C` and `d` are retrievable with their values; the recency list reads
`d, k1, k_C, .., k_3`. -/
theorem access_refreshes_recency (C : Int) (k1 k2 : String) (v1 v2 : Option V)
    (rest : List (String × Option V)) (m : Nat) (d : String) (vd : Option V)
    (s : LRUCache V)
    (hC : C = (rest.length : Int) + 2)
    (hnd : (k1 :: k2 :: rest.map Prod.fst).Nodup)
    (hd : d ∉ k1 :: k2 :: rest.map Prod.fst)
    (hm : 1 ≤ m)
    (hs : run (NewLRUCache C)
      (putAll ((k1, v1) :: (k2, v2) :: rest) ++ List.replicate m (Op.get k1) ++
        [Op.put d vd]) = s) :
    entries s = (d, vd) :: (k1, v1) :: rest.reverse ∧
    (Get s k2).1 = (none, false) ∧
    (Get s k1).1 = (v1, true) ∧
    (∀ kv ∈ rest, (Get s kv.1).1 = (kv.2, true)) ∧
    (Get s d).1 = (vd, true) := by
  subst hs
  have hw : WF (run (NewLRUCache C : LRUCache V)
      (putAll ((k1, v1) :: (k2, v2) :: rest) ++ List.replicate m (Op.get k1) ++
        [Op.put d vd])) := WF_run (WF_NewLRUCache C) _
  have hC1 : 1 ≤ C := by omega
  have hnd0 : (((k1, v1) :: (k2, v2) :: rest).map Prod.fst).Nodup := by simpa using hnd
  obtain ⟨m', rfl⟩ : ∃ m', m = m' + 1 := ⟨m - 1, by omega⟩
  simp only [List.mem_cons, not_or, List.nodup_cons] at hnd hd
  obtain ⟨⟨hk12, hk1r⟩, hk2r, hrnd⟩ := hnd
  obtain ⟨hdk1, hdk2, hdr⟩ := hd
  have hputs : (putAll ((k1, v1) :: (k2, v2) :: rest)).foldl (stepEntries C) [] =
      rest.reverse ++ [(k2, v2), (k1, v1)] := by
    rw [foldl_putAll C hC1 _ hnd0, List.take_of_length_le (by simp; omega)]
    simp
  have hk1notin : k1 ∉ (rest.reverse ++ [(k2, v2)]).map Prod.fst := by
    simp only [List.map_append, List.map_reverse, List.map_cons, List.map_nil,
      List.mem_append, List.mem_reverse, List.mem_singleton, not_or]
    exact ⟨hk1r, hk12⟩
  have htouch : touchEntries (rest.reverse ++ [(k2, v2), (k1, v1)]) k1 =
      (k1, v1) :: (rest.reverse ++ [(k2, v2)]) := by
    have hnd1 : ((rest.reverse ++ [(k2, v2), (k1, v1)]).map Prod.fst).Nodup := by
      rw [← hputs, ← entries_run_New]
      exact listKeys_nodup (WF_run (WF_NewLRUCache C) _)
    have hv : assocValue (rest.reverse ++ [(k2, v2), (k1, v1)]) k1 = some v1 :=
      assocValue_of_mem hnd1 (by simp)
    have hdrop : dropKey (rest.reverse ++ [(k2, v2), (k1, v1)]) k1 =
        rest.reverse ++ [(k2, v2)] := by
      have h1 : rest.reverse ++ [(k2, v2), (k1, v1)] =
          (rest.reverse ++ [(k2, v2)]) ++ [(k1, v1)] := by simp
      have h2 := dropKey_of_not_mem hk1notin
      unfold dropKey at h2 ⊢
      rw [h1, List.filter_append, h2]
      simp
    rw [touchEntries, hv]
    show (k1, v1) :: dropKey _ k1 = _
    rw [hdrop]
  have hent : entries (run (NewLRUCache C : LRUCache V)
      (putAll ((k1, v1) :: (k2, v2) :: rest) ++ List.replicate (m' + 1) (Op.get k1) ++
        [Op.put d vd])) = (d, vd) :: (k1, v1) :: rest.reverse := by
    rw [entries_run_New, List.foldl_append, List.foldl_append, hputs,
      List.replicate_succ, List.foldl_cons]
    show putEntries C ((List.replicate m' (Op.get k1)).foldl (stepEntries C)
      (touchEntries (rest.reverse ++ [(k2, v2), (k1, v1)]) k1)) d vd = _
    rw [htouch, foldl_get_front C _ k1 v1 hk1notin m']
    have hdnot : d ∉ ((k1, v1) :: (rest.reverse ++ [(k2, v2)])).map Prod.fst := by
      simp only [List.map_cons, List.map_append, List.map_reverse, List.map_nil,
        List.mem_cons, List.mem_append, List.mem_reverse, List.mem_singleton, not_or]
      exact ⟨hdk1, hdr, hdk2, List.not_mem_nil d⟩
    rw [putEntries, if_neg (by omega), if_neg hdnot, if_pos (by simp; omega)]
    congr 1
    rw [← List.cons_append, List.dropLast_concat]
  have hkeys := listKeys_nodup hw
  unfold listKeys at hkeys
  rw [hent] at hkeys
  refine ⟨hent, ?_, ?_, ?_, ?_⟩
  · rw [Get_result hw, hent]
    have : assocValue ((d, vd) :: (k1, v1) :: rest.reverse) k2 = none := by
      rw [assocValue_eq_none_iff]
      simp only [List.map_cons, List.map_reverse, List.mem_cons, List.mem_reverse, not_or]
      exact ⟨fun e => hdk2 e.symm, fun e => hk12 (by simp [e]), hk2r⟩
    rw [this]
  · have hmem : (k1, v1) ∈ (d, vd) :: (k1, v1) :: rest.reverse := by simp
    rw [Get_result hw, hent, assocValue_of_mem hkeys hmem]
  · intro kv hkv
    rw [Get_result hw, hent]
    have hmem : (kv.1, kv.2) ∈ (d, vd) :: (k1, v1) :: rest.reverse := by
      simp [hkv]
    rw [assocValue_of_mem hkeys hmem]
  · have hmem : (d, vd) ∈ (d, vd) :: (k1, v1) :: rest.reverse := by simp
    rw [Get_result hw, hent, assocValue_of_mem hkeys hmem]

/-- C10 on the test `TestLRUCacheFrequentAccess`: capacity 3, `Put A, B, C`;
`Get A` three times; `Put D`; then `B` misses, `A` and `C` hit, `D` is
present. -/
theorem access_refreshes_recency_witness :
    (3 : Int) = (([("C", some 3)] : List (String × Option Nat)).length : Int) + 2 ∧
    ("A" :: "B" :: ([("C", some 3)] : List (String × Option Nat)).map Prod.fst).Nodup ∧
    "D" ∉ "A" :: "B" :: ([("C", some 3)] : List (String × Option Nat)).map Prod.fst ∧
    1 ≤ 3 ∧
    (entries (run (NewLRUCache 3 : LRUCache Nat)
        (putAll (("A", some 1) :: ("B", some 2) :: [("C", some 3)]) ++
          List.replicate 3 (Op.get "A") ++ [Op.put "D" (some 4)])) =
      ("D", some 4) :: ("A", some 1) :: ([("C", some 3)] : List (String × Option Nat)).reverse ∧
    (Get (run (NewLRUCache 3 : LRUCache Nat)
        (putAll (("A", some 1) :: ("B", some 2) :: [("C", some 3)]) ++
          List.replicate 3 (Op.get "A") ++ [Op.put "D" (some 4)])) "B").1 = (none, false) ∧
    (Get (run (NewLRUCache 3 : LRUCache Nat)
        (putAll (("A", some 1) :: ("B", some 2) :: [("C", some 3)]) ++
          List.replicate 3 (Op.get "A") ++ [Op.put "D" (some 4)])) "A").1 = (some 1, true) ∧
    (∀ kv ∈ ([("C", some 3)] : List (String × Option Nat)),
      (Get (run (NewLRUCache 3 : LRUCache Nat)
        (putAll (("A", some 1) :: ("B", some 2) :: [("C", some 3)]) ++
          List.replicate 3 (Op.get "A") ++ [Op.put "D" (some 4)])) kv.1).1 = (kv.2, true)) ∧
    (Get (run (NewLRUCache 3 : LRUCache Nat)
        (putAll (("A", some 1) :: ("B", some 2) :: [("C", some 3)]) ++
          List.replicate 3 (Op.get "A") ++ [Op.put "D" (some 4)])) "D").1 = (some 4, true)) :=
  ⟨by decide, by decide, by decide, by decide,
    access_refreshes_recency 3 "A" "B" (some 1) (some 2) [("C", some 3)] 3 "D" (some 4) _
      (by decide) (by decide) (by decide) (by decide) rfl⟩

/-! ## Hit and miss accounting -/

theorem Get_hits (c : LRUCache V) (k : String) :
    (Get c k).2.hits = c.hits + (if (Get c k).1.2 = true then 1 else 0) := by
  unfold Get
  cases mapLookup c.cache k <;> simp

theorem Get_misses (c : LRUCache V) (k : String) :
    (Get c k).2.misses = c.misses + (if (Get c k).1.2 = false then 1 else 0) := by
  unfold Get
  cases mapLookup c.cache k <;> simp

theorem run_hits (c : LRUCache V) (ops : List (Op V)) :
    (run c ops).hits = c.hits + ((getResults c ops).countP (fun r => r.2 == true) : Nat) := by
  induction ops generalizing c with
  | nil => simp [run, getResults]
  | cons op ops ih =>
    cases op with
    | get k =>
      show (run (Get c k).2 ops).hits = _
      rw [ih, Get_hits]
      simp only [getResults, List.countP_cons]
      by_cases h : (Get c k).1.2 = true
      · simp [h]; ring
      · simp [h]
    | put k v =>
      show (run (Put c k v) ops).hits = _
      rw [ih, Put_hits]
      simp only [getResults]

theorem run_misses (c : LRUCache V) (ops : List (Op V)) :
    (run c ops).misses =
      c.misses + ((getResults c ops).countP (fun r => r.2 == false) : Nat) := by
  induction ops generalizing c with
  | nil => simp [run, getResults]
  | cons op ops ih =>
    cases op with
    | get k =>
      show (run (Get c k).2 ops).misses = _
      rw [ih, Get_misses]
      simp only [getResults, List.countP_cons]
      by_cases h : (Get c k).1.2 = true
      · simp [h]
      · simp [h]; ring
    | put k v =>
      show (run (Put c k v) ops).misses = _
      rw [ih, Put_misses]
      simp only [getResults]

theorem getResults_length (c : LRUCache V) (ops : List (Op V)) :
    (getResults c ops).length = getCount ops := by
  induction ops generalizing c with
  | nil => rfl
  | cons op ops ih =>
    cases op with
    | get k => simp [getResults, getCount, ih]
    | put k v => simp [getResults, getCount, ih]

theorem countP_found_add (rs : List (Option V × Bool)) :
    rs.countP (fun r => r.2 == true) + rs.countP (fun r => r.2 == false) = rs.length := by
  induction rs with
  | nil => rfl
  | cons r rs ih =>
    obtain ⟨x, b⟩ := r
    cases b with
    | false =>
      have h1 : List.countP (fun r => r.2 == true) ((x, false) :: rs) =
          List.countP (fun r => r.2 == true) rs := by simp [List.countP_cons]
      have h2 : List.countP (fun r => r.2 == false) ((x, false) :: rs) =
          List.countP (fun r => r.2 == false) rs + 1 := by simp [List.countP_cons]
      rw [h1, h2, List.length_cons]
      omega
    | true =>
      have h1 : List.countP (fun r => r.2 == true) ((x, true) :: rs) =
          List.countP (fun r => r.2 == true) rs + 1 := by simp [List.countP_cons]
      have h2 : List.countP (fun r => r.2 == false) ((x, true) :: rs) =
          List.countP (fun r => r.2 == false) rs := by simp [List.countP_cons]
      rw [h1, h2, List.length_cons]
      omega

/-- C11 (hit/miss accounting). For every capacity and every sequence `ops` of
`Put`/`Get` calls from a new cache, `GetHitMissCount` returns `(h, m)` where `h`
is the number of `Get` calls of `ops` that returned `found = true` and `m` the
number that returned `found = false`; `h + m` is the number of `Get` calls; a
further `Put` changes neither counter.  On the calls of
`TestLRUCacheHitMissRatio` at capacity 3 the `Get` calls hit, hit, miss, hit,
miss, hit in that order and the result is `(4, 2)`. -/
theorem hit_miss_accounting (C : Int) (ops : List (Op V)) (k : String) (v : Option V) :
    (GetHitMissCount (run (NewLRUCache C) ops)).1 =
      ((((getResults (NewLRUCache C) ops).countP (fun r => r.2 == true) : Nat) : Int),
       (((getResults (NewLRUCache C) ops).countP (fun r => r.2 == false) : Nat) : Int)) ∧
    (GetHitMissCount (run (NewLRUCache C) ops)).1.1 +
      (GetHitMissCount (run (NewLRUCache C) ops)).1.2 = (getCount ops : Int) ∧
    (GetHitMissCount (Put (run (NewLRUCache C) ops) k v)).1 =
      (GetHitMissCount (run (NewLRUCache C) ops)).1 ∧
    (getResults (NewLRUCache 3) hitMissCalls).map Prod.snd =
      [true, true, false, true, false, true] ∧
    (GetHitMissCount (run (NewLRUCache 3) hitMissCalls)).1 = (4, 2) := by
  have hh := run_hits (NewLRUCache C : LRUCache V) ops
  have hm := run_misses (NewLRUCache C : LRUCache V) ops
  have hadd := countP_found_add (getResults (NewLRUCache C : LRUCache V) ops)
  rw [getResults_length] at hadd
  have hh0 : (NewLRUCache C : LRUCache V).hits = 0 := rfl
  have hm0 : (NewLRUCache C : LRUCache V).misses = 0 := rfl
  rw [hh0, zero_add] at hh
  rw [hm0, zero_add] at hm
  refine ⟨?_, ?_, ?_, by decide, by decide⟩
  · simp only [GetHitMissCount, hh, hm]
  · simp only [GetHitMissCount, hh, hm]
    rw [← hadd]
    push_cast
    rfl
  · simp only [GetHitMissCount, Put_hits, Put_misses]

/-! ## Capacity 1 -/

theorem putEntries_one (es : List (String × Option V)) (hnd : (es.map Prod.fst).Nodup)
    (hlen : es.length ≤ 1) (k : String) (v : Option V) :
    putEntries 1 es k v = [(k, v)] := by
  rw [putEntries, if_neg (by decide)]
  match es, hlen, hnd with
  | [], _, _ => simp
  | [(a, w)], _, _ =>
    by_cases ha : k = a
    · subst ha
      simp [dropKey]
    · have ha' : ¬ a = k := fun e => ha e.symm
      simp [ha]

/-- C12 (capacity-1 replacement). In every state reached from `NewLRUCache 1`,
after `Put k v` the cache holds exactly the single entry `(k, v)`: the recency
list has length 1 and `k` is the only index key.  Hence for distinct keys `A`
and `B`, after `Put A; Put B` the size is 1, `Get A` misses and `Get B` hits
with the value written. -/
theorem capacity_one_replacement (ops : List (Op V)) (k : String) (v : Option V)
    (A B : String) (va vb : Option V) (hAB : A ≠ B) :
    entries (Put (run (NewLRUCache 1) ops) k v) = [(k, v)] ∧
    Len (Put (run (NewLRUCache 1) ops) k v).list = 1 ∧
    indexKeys (Put (run (NewLRUCache 1) ops) k v) = [k] ∧
    Len (Put (Put (run (NewLRUCache 1) ops) A va) B vb).list = 1 ∧
    (indexKeys (Put (Put (run (NewLRUCache 1) ops) A va) B vb)).length = 1 ∧
    (Get (Put (Put (run (NewLRUCache 1) ops) A va) B vb) A).1 = (none, false) ∧
    (Get (Put (Put (run (NewLRUCache 1) ops) A va) B vb) B).1 = (vb, true) := by
  have key : ∀ (s : LRUCache V), WF s → s.capacity = 1 → ∀ (k : String) (v : Option V),
      entries (Put s k v) = [(k, v)] ∧ Len (Put s k v).list = 1 ∧
      indexKeys (Put s k v) = [k] := by
    intro s hw hcap k v
    have hw' := WF_Put hw k v
    have hb := hw.bound_nonneg (by omega)
    have hent : entries (Put s k v) = [(k, v)] := by
      rw [entries_Put hw, hcap]
      apply putEntries_one _ (listKeys_nodup hw)
      rw [entries_length hw]
      omega
    have hlen : (Put s k v).list.length = 1 := by
      rw [← entries_length hw', hent]; rfl
    refine ⟨hent, hlen, ?_⟩
    have hclen : (indexKeys (Put s k v)).length = 1 := by
      unfold indexKeys
      rw [List.length_map, hw'.length_eq, hlen]
    have hmem : k ∈ indexKeys (Put s k v) := by
      have : held (Put s k v) k := by
        rw [held_iff_mem_listKeys hw']
        unfold listKeys
        rw [hent]; simp
      unfold held at this
      obtain ⟨p, hp⟩ := Option.isSome_iff_exists.1 this
      exact List.mem_map_of_mem Prod.fst (mem_of_mapLookup hp)
    match hik : indexKeys (Put s k v), hclen, hmem with
    | [a], _, hm =>
      simp only [List.mem_singleton] at hm
      rw [hm]
  have hw : WF (run (NewLRUCache 1 : LRUCache V) ops) := WF_run (WF_NewLRUCache 1) ops
  have hcap : (run (NewLRUCache 1 : LRUCache V) ops).capacity = 1 := by
    rw [run_capacity]; rfl
  have hwA := WF_Put hw A va
  have hcapA : (Put (run (NewLRUCache 1 : LRUCache V) ops) A va).capacity = 1 := by
    have := step_capacity (run (NewLRUCache 1 : LRUCache V) ops) (Op.put A va)
    simp only [step] at this
    rw [this, hcap]
  have hwB := WF_Put hwA B vb
  obtain ⟨h1, h2, h3⟩ := key _ hw hcap k v
  obtain ⟨hB1, hB2, hB3⟩ := key _ hwA hcapA B vb
  refine ⟨h1, h2, h3, hB2, by rw [hB3]; rfl, ?_, ?_⟩
  · rw [Get_result hwB, hB1]
    have : ¬ B = A := fun e => hAB e.symm
    simp [assocValue, this]
  · rw [Get_result hwB, hB1]
    simp [assocValue]

/-- C12 on the calls of `TestLRUCacheBoundaryConditions`: capacity 1, `Put A`,
`Put B`. -/
theorem capacity_one_replacement_witness :
    "A" ≠ "B" ∧
    (entries (Put (run (NewLRUCache 1) ([] : List (Op String))) "A" (some "valueA")) =
      [("A", some "valueA")] ∧
    Len (Put (run (NewLRUCache 1) ([] : List (Op String))) "A" (some "valueA")).list = 1 ∧
    indexKeys (Put (run (NewLRUCache 1) ([] : List (Op String))) "A" (some "valueA")) = ["A"] ∧
    Len (Put (Put (run (NewLRUCache 1) ([] : List (Op String))) "A" (some "valueA"))
      "B" (some "valueB")).list = 1 ∧
    (indexKeys (Put (Put (run (NewLRUCache 1) ([] : List (Op String))) "A" (some "valueA"))
      "B" (some "valueB"))).length = 1 ∧
    (Get (Put (Put (run (NewLRUCache 1) ([] : List (Op String))) "A" (some "valueA"))
      "B" (some "valueB")) "A").1 = (none, false) ∧
    (Get (Put (Put (run (NewLRUCache 1) ([] : List (Op String))) "A" (some "valueA"))
      "B" (some "valueB")) "B").1 = (some "valueB", true)) :=
  ⟨by decide,
    capacity_one_replacement [] "A" (some "valueA") "A" "B" (some "valueA") (some "valueB")
      (by decide)⟩

/-! ## `Get` keeps the contents -/

theorem Get_cache (s : LRUCache V) (k : String) : (Get s k).2.cache = s.cache := by
  unfold Get
  cases mapLookup s.cache k <;> rfl

theorem Get_heap (s : LRUCache V) (k : String) : (Get s k).2.heap = s.heap := by
  unfold Get
  cases mapLookup s.cache k <;> rfl

theorem Get_list_perm (s : LRUCache V) (k : String) : ((Get s k).2.list).Perm s.list := by
  unfold Get
  cases mapLookup s.cache k with
  | none => exact List.Perm.refl _
  | some e => exact MoveToFront_perm s.list e

theorem Get_fst_congr {s t : LRUCache V} (hc : t.cache = s.cache) (hh : t.heap = s.heap)
    (k : String) : (Get t k).1 = (Get s k).1 := by
  unfold Get
  rw [hc, hh]
  cases mapLookup s.cache k <;> rfl

/-- C13 (Get never changes contents). In every state (reachable or not) and
for every key `k`, `Get k`, hit or miss, leaves the index and the memory
unchanged: the same keys are held, every key has the same result under `Get`
(so the same stored value), and the recency list holds the same entries,
possibly in another order; no entry is created, modified in value, or
evicted. -/
theorem Get_keeps_contents (s : LRUCache V) (k : String) :
    (Get s k).2.cache = s.cache ∧
    (Get s k).2.heap = s.heap ∧
    (∀ k', held (Get s k).2 k' ↔ held s k') ∧
    (∀ k', (Get (Get s k).2 k').1 = (Get s k').1) ∧
    (entries (Get s k).2).Perm (entries s) ∧
    Len (Get s k).2.list = Len s.list := by
  refine ⟨Get_cache s k, Get_heap s k, ?_, ?_, ?_, ?_⟩
  · intro k'
    unfold held
    rw [Get_cache]
  · intro k'
    exact Get_fst_congr (Get_cache s k) (Get_heap s k) k'
  · unfold entries
    rw [Get_heap]
    exact (Get_list_perm s k).filterMap _
  · exact (Get_list_perm s k).length_eq

/-! ## Index and recency list -/

theorem held_iff_mem_indexKeys (c : LRUCache V) (k : String) :
    held c k ↔ k ∈ indexKeys c := by
  unfold held indexKeys
  have := mapLookup_eq_none_iff c.cache k
  cases h : mapLookup c.cache k with
  | none =>
    rw [h] at this
    simp only [Option.isSome_none, Bool.false_eq_true, false_iff]
    exact this.1 rfl
  | some p =>
    rw [h] at this
    simp only [Option.isSome_some, true_iff]
    by_contra hn
    have := this.2 hn
    simp at this

/-- C14 (index and recency list stay mutually consistent). In every state
reachable from `NewLRUCache C` by `Put`/`Get` calls: the keys stored in the
recency list are pairwise distinct, as are its nodes and the index keys; every
node of the list carries an entry; a key is in the index exactly when it is
stored in the list; each index key `k` refers to a node of the list whose
stored key is `k`; and each node of the list is the one the index gives for
its stored key. -/
theorem index_list_consistent (C : Int) (s : LRUCache V) (hr : Reachable C s) :
    (listKeys s).Nodup ∧
    s.list.Nodup ∧
    (indexKeys s).Nodup ∧
    (listKeys s).length = s.list.length ∧
    (indexKeys s).length = s.list.length ∧
    (∀ k, k ∈ indexKeys s ↔ k ∈ listKeys s) ∧
    (∀ k p, mapLookup s.cache k = some p →
      p ∈ s.list ∧ ∃ item, deref s.heap p = some item ∧ item.Key = k) ∧
    (∀ p, p ∈ s.list →
      ∃ item, deref s.heap p = some item ∧ mapLookup s.cache item.Key = some p) := by
  have hw := hr.wf
  refine ⟨listKeys_nodup hw, hw.list_nodup, hw.keys_nodup, ?_, ?_, ?_, ?_, ?_⟩
  · unfold listKeys
    rw [List.length_map, entries_length hw]
  · unfold indexKeys
    rw [List.length_map, hw.length_eq]
  · intro k
    rw [← held_iff_mem_indexKeys, held_iff_mem_listKeys hw]
  · intro k p hl
    exact hw.lookup hl
  · intro p hp
    exact hw.of_mem_list hp

/-- C14 on `sampleFull`. -/
theorem index_list_consistent_witness :
    Reachable 3 sampleFull ∧
    ((listKeys sampleFull).Nodup ∧
    sampleFull.list.Nodup ∧
    (indexKeys sampleFull).Nodup ∧
    (listKeys sampleFull).length = sampleFull.list.length ∧
    (indexKeys sampleFull).length = sampleFull.list.length ∧
    (∀ k, k ∈ indexKeys sampleFull ↔ k ∈ listKeys sampleFull) ∧
    (∀ k p, mapLookup sampleFull.cache k = some p →
      p ∈ sampleFull.list ∧ ∃ item, deref sampleFull.heap p = some item ∧ item.Key = k) ∧
    (∀ p, p ∈ sampleFull.list →
      ∃ item, deref sampleFull.heap p = some item ∧
        mapLookup sampleFull.cache item.Key = some p)) :=
  ⟨⟨_, rfl⟩, index_list_consistent 3 sampleFull ⟨_, rfl⟩⟩

/-! ## Recency order: front and back -/

/-- How one call changes the keys of the recency list: either it touches no
key and the keys stay, or the list is empty afterwards, or the touched key is
put in front of a sublist of the old keys that does not contain it. -/
theorem step_keys_cases {c : LRUCache V} (h : WF c) (op : Op V) :
    (touchOf c op = none ∧ listKeys (step c op) = listKeys c) ∨
    listKeys (step c op) = [] ∨
    ∃ k sub, touchOf c op = some k ∧ listKeys (step c op) = k :: sub ∧
      sub.Sublist (listKeys c) ∧ k ∉ sub := by
  unfold listKeys
  rw [entries_step h]
  cases op with
  | get k =>
    simp only [touchOf, stepEntries, touchEntries, Get_result h]
    cases hv : assocValue (entries c) k with
    | none => left; simp
    | some v =>
      right; right
      exact ⟨k, _, by simp, by simp, dropKey_keys_sublist _ k, not_mem_dropKey_keys _ k⟩
  | put k v =>
    simp only [touchOf, stepEntries, putEntries]
    by_cases h0 : c.capacity = 0
    · have hb := h.bound_nonneg (by omega)
      have hlen := entries_length h
      have hnil : entries c = [] := List.eq_nil_of_length_eq_zero (by omega)
      right; left
      rw [if_pos h0, hnil]; rfl
    · rw [if_neg h0]
      right; right
      by_cases hm : k ∈ (entries c).map Prod.fst
      · rw [if_pos hm]
        exact ⟨k, _, rfl, by simp, dropKey_keys_sublist _ k, not_mem_dropKey_keys _ k⟩
      · rw [if_neg hm]
        by_cases hfull : ((entries c).length : Int) ≥ c.capacity
        · rw [if_pos hfull]
          have hsub : ((entries c).dropLast.map Prod.fst).Sublist ((entries c).map Prod.fst) :=
            (List.dropLast_sublist _).map Prod.fst
          exact ⟨k, _, rfl, by simp, hsub, fun hx => hm (hsub.subset hx)⟩
        · rw [if_neg hfull]
          exact ⟨k, _, rfl, by simp, List.Sublist.refl _, hm⟩

theorem frontLatest_step {c : LRUCache V} (h : WF c) {log : List (Option String)}
    (hf : FrontLatest log (listKeys c)) (op : Op V) :
    FrontLatest (log ++ [touchOf c op]) (listKeys (step c op)) := by
  rcases step_keys_cases h op with ⟨ht, hk⟩ | hnil | ⟨k, sub, ht, hk, -, -⟩
  · rw [ht, hk]
    intro k hk'
    obtain ⟨t, h1, h2⟩ := hf k hk'
    refine ⟨t, by rw [lastTouch_snoc]; simpa using h1, ?_⟩
    intro k' t' h'
    rw [lastTouch_snoc] at h'
    simp only [reduceCtorEq, if_false] at h'
    exact h2 k' t' h'
  · rw [hnil]
    intro k hk'
    simp at hk'
  · rw [ht, hk]
    intro k0 hk0
    simp only [List.head?_cons, Option.some.injEq] at hk0
    subst hk0
    refine ⟨log.length, by rw [lastTouch_snoc, if_pos rfl], ?_⟩
    intro k' t' h'
    have := lastTouch_lt h'
    simp only [List.length_append, List.length_singleton] at this
    omega

theorem frontLatest_run {c : LRUCache V} (h : WF c) (log : List (Option String))
    (hf : FrontLatest log (listKeys c)) (ops : List (Op V)) :
    FrontLatest (log ++ touchLog c ops) (listKeys (run c ops)) := by
  induction ops generalizing c log with
  | nil => simpa [touchLog, run] using hf
  | cons op ops ih =>
    have := ih (WF_step h op) (log ++ [touchOf c op]) (frontLatest_step h hf op)
    simpa [touchLog, run] using this

theorem frontLatest_reachable (C : Int) (ops : List (Op V)) :
    FrontLatest (touchLog (NewLRUCache C) ops) (listKeys (run (NewLRUCache C) ops)) := by
  have hnil : FrontLatest [] (listKeys (NewLRUCache C : LRUCache V)) := by
    intro k hk
    simp [listKeys, entries, NewLRUCache] at hk
  have := frontLatest_run (WF_NewLRUCache C) [] hnil ops
  simpa using this

/-- C15 (recency order invariant). In every state `s` reached from
`NewLRUCache C` by a sequence `ops` of `Put`/`Get` calls, for every capacity `C`
(so for every `C ≥ 0`): the keys of the recency list read front to back are in
strictly decreasing order of the time of their last touch (a `Put`, or a `Get`
hit), each having been touched; the front key carries the latest touch of the
whole history; and the back key is the one an overflowing `Put` removes: when
`k` is absent and the list length has reached a non-zero capacity, `Put k v`
puts `k` in front of the old keys without the last one and the old back key is
no longer held. -/
theorem recency_order_invariant (C : Int) (ops : List (Op V)) (s : LRUCache V)
    (hs : run (NewLRUCache C) ops = s) :
    (listKeys s).Pairwise (fun a b => ∃ ta tb,
      lastTouch (touchLog (NewLRUCache C) ops) a = some ta ∧
      lastTouch (touchLog (NewLRUCache C) ops) b = some tb ∧ tb < ta) ∧
    (∀ k, k ∈ listKeys s → ∃ t, lastTouch (touchLog (NewLRUCache C) ops) k = some t) ∧
    (∀ k, (listKeys s).head? = some k →
      ∃ t, lastTouch (touchLog (NewLRUCache C) ops) k = some t ∧
        ∀ k' t', lastTouch (touchLog (NewLRUCache C) ops) k' = some t' → t' ≤ t) ∧
    (∀ e k v, (listKeys s).getLast? = some e → ¬ held s k →
      (Len s.list : Int) ≥ s.capacity → s.capacity ≠ 0 →
      listKeys (Put s k v) = k :: (listKeys s).dropLast ∧ ¬ held (Put s k v) e) := by
  subst hs
  have hw : WF (run (NewLRUCache C : LRUCache V) ops) := WF_run (WF_NewLRUCache C) ops
  have hrec := recency_reachable C ops
  refine ⟨hrec.1, hrec.2, frontLatest_reachable C ops, ?_⟩
  intro e k v he hk hfull h0
  have hw' := WF_Put hw k v
  have hlen := entries_length hw
  unfold Len at hfull
  have hk_notin : k ∉ (entries (run (NewLRUCache C : LRUCache V) ops)).map Prod.fst :=
    fun hm => hk ((held_iff_mem_listKeys hw k).2 hm)
  have hkeys : listKeys (Put (run (NewLRUCache C : LRUCache V) ops) k v) =
      k :: (listKeys (run (NewLRUCache C : LRUCache V) ops)).dropLast := by
    unfold listKeys
    rw [entries_Put hw, putEntries, if_neg h0, if_neg hk_notin, if_pos (by omega)]
    simp [List.map_dropLast]
  refine ⟨hkeys, ?_⟩
  rw [held_iff_mem_listKeys hw', hkeys]
  obtain ⟨ys, hys⟩ := List.getLast?_eq_some_iff.1 he
  have hnd := listKeys_nodup hw
  rw [hys] at hnd ⊢
  intro hm
  rw [List.dropLast_concat] at hm
  rcases List.mem_cons.1 hm with h | h
  · apply hk
    rw [held_iff_mem_listKeys hw, hys, ← h]
    simp
  · exact (List.nodup_append.1 hnd).2.2 h (List.mem_singleton_self e)

/-- C15 on `sampleFull` (capacity 3, calls `Put A; Put B; Get A; Put C`). -/
theorem recency_order_invariant_witness :
    run (NewLRUCache 3)
      [Op.put "A" (some 1), Op.put "B" (some 2), Op.get "A", Op.put "C" (some 3)] = sampleFull ∧
    ((listKeys sampleFull).Pairwise (fun a b => ∃ ta tb,
      lastTouch (touchLog (NewLRUCache 3 : LRUCache Nat)
        [Op.put "A" (some 1), Op.put "B" (some 2), Op.get "A", Op.put "C" (some 3)]) a =
        some ta ∧
      lastTouch (touchLog (NewLRUCache 3 : LRUCache Nat)
        [Op.put "A" (some 1), Op.put "B" (some 2), Op.get "A", Op.put "C" (some 3)]) b =
        some tb ∧ tb < ta) ∧
    (∀ k, k ∈ listKeys sampleFull →
      ∃ t, lastTouch (touchLog (NewLRUCache 3 : LRUCache Nat)
        [Op.put "A" (some 1), Op.put "B" (some 2), Op.get "A", Op.put "C" (some 3)]) k =
        some t) ∧
    (∀ k, (listKeys sampleFull).head? = some k →
      ∃ t, lastTouch (touchLog (NewLRUCache 3 : LRUCache Nat)
        [Op.put "A" (some 1), Op.put "B" (some 2), Op.get "A", Op.put "C" (some 3)]) k =
        some t ∧
        ∀ k' t', lastTouch (touchLog (NewLRUCache 3 : LRUCache Nat)
          [Op.put "A" (some 1), Op.put "B" (some 2), Op.get "A", Op.put "C" (some 3)]) k' =
          some t' → t' ≤ t) ∧
    (∀ e k v, (listKeys sampleFull).getLast? = some e → ¬ held sampleFull k →
      (Len sampleFull.list : Int) ≥ sampleFull.capacity → sampleFull.capacity ≠ 0 →
      listKeys (Put sampleFull k v) = k :: (listKeys sampleFull).dropLast ∧
        ¬ held (Put sampleFull k v) e)) :=
  ⟨rfl, recency_order_invariant 3 _ sampleFull rfl⟩

/-! ## Statistics -/

theorem statsCalls_eq (c : LRUCache V) (n : Nat) :
    statsCalls c n = (List.replicate n (c.hits, c.misses), c) := by
  induction n with
  | zero => rfl
  | succ n ih =>
    simp only [statsCalls, GetHitMissCount, ih, List.replicate_succ]

/-- C16 (stats is read-only and idempotent). In every state `c`,
`GetHitMissCount` returns the current `(hits, misses)` and leaves the whole
state unchanged; so `n` consecutive calls with no `Get`/`Put` in between all
return that same pair and leave the state unchanged, and a second call returns
what the first returned. -/
theorem stats_read_only (c : LRUCache V) (n : Nat) :
    (GetHitMissCount c).1 = (c.hits, c.misses) ∧
    (GetHitMissCount c).2 = c ∧
    (GetHitMissCount (GetHitMissCount c).2).1 = (GetHitMissCount c).1 ∧
    (statsCalls c n).1 = List.replicate n (c.hits, c.misses) ∧
    (statsCalls c n).2 = c := by
  refine ⟨rfl, rfl, rfl, ?_, ?_⟩
  · rw [statsCalls_eq]
  · rw [statsCalls_eq]

/-! ## Monotonic counters -/

theorem step_hits_le (c : LRUCache V) (op : Op V) : c.hits ≤ (step c op).hits := by
  cases op with
  | get k =>
    show c.hits ≤ (Get c k).2.hits
    rw [Get_hits]
    split <;> omega
  | put k v =>
    show c.hits ≤ (Put c k v).hits
    rw [Put_hits]

theorem step_misses_le (c : LRUCache V) (op : Op V) : c.misses ≤ (step c op).misses := by
  cases op with
  | get k =>
    show c.misses ≤ (Get c k).2.misses
    rw [Get_misses]
    split <;> omega
  | put k v =>
    show c.misses ≤ (Put c k v).misses
    rw [Put_misses]

theorem run_counters_le (c : LRUCache V) (ops : List (Op V)) :
    c.hits ≤ (run c ops).hits ∧ c.misses ≤ (run c ops).misses := by
  induction ops generalizing c with
  | nil => exact ⟨le_refl _, le_refl _⟩
  | cons op ops ih =>
    have h1 := step_hits_le c op
    have h2 := step_misses_le c op
    have h3 := ih (step c op)
    show c.hits ≤ (run (step c op) ops).hits ∧ c.misses ≤ (run (step c op) ops).misses
    exact ⟨le_trans h1 h3.1, le_trans h2 h3.2⟩

/-! ## Counters in the 64-bit `int` -/

theorem wrapInt64_of_range {x : Int} (hlo : -9223372036854775808 ≤ x) (hhi : x ≤ maxInt64) :
    wrapInt64 x = x := by
  unfold maxInt64 at hhi
  unfold wrapInt64
  omega

theorem le_wrapInt64_succ {x : Int} (h : x < maxInt64) : x ≤ wrapInt64 (x + 1) := by
  unfold maxInt64 at h
  unfold wrapInt64
  omega

/-- Below the largest `int` the wrapped `Get` is the exact `Get`. -/
theorem Get64_eq_Get (c : LRUCache V) (k : String)
    (hh : -9223372036854775808 ≤ c.hits + 1 ∧ c.hits < maxInt64)
    (hm : -9223372036854775808 ≤ c.misses + 1 ∧ c.misses < maxInt64) :
    Get64 c k = Get c k := by
  have h1 : wrapInt64 (c.hits + 1) = c.hits + 1 :=
    wrapInt64_of_range hh.1 (by have := hh.2; unfold maxInt64 at *; omega)
  have h2 : wrapInt64 (c.misses + 1) = c.misses + 1 :=
    wrapInt64_of_range hm.1 (by have := hm.2; unfold maxInt64 at *; omega)
  unfold Get64 Get
  rw [h1, h2]

theorem Get64_hits_le (c : LRUCache V) (k : String) (hh : c.hits < maxInt64) :
    c.hits ≤ (Get64 c k).2.hits := by
  unfold Get64
  cases mapLookup c.cache k with
  | none => exact le_refl _
  | some e => exact le_wrapInt64_succ hh

theorem Get64_misses_le (c : LRUCache V) (k : String) (hm : c.misses < maxInt64) :
    c.misses ≤ (Get64 c k).2.misses := by
  unfold Get64
  cases mapLookup c.cache k with
  | none => exact le_wrapInt64_succ hm
  | some e => exact le_refl _

theorem step_hits_le_succ (c : LRUCache V) (op : Op V) : (step c op).hits ≤ c.hits + 1 := by
  cases op with
  | get k =>
    show (Get c k).2.hits ≤ c.hits + 1
    rw [Get_hits]
    split <;> omega
  | put k v =>
    show (Put c k v).hits ≤ c.hits + 1
    rw [Put_hits]
    omega

theorem step_misses_le_succ (c : LRUCache V) (op : Op V) :
    (step c op).misses ≤ c.misses + 1 := by
  cases op with
  | get k =>
    show (Get c k).2.misses ≤ c.misses + 1
    rw [Get_misses]
    split <;> omega
  | put k v =>
    show (Put c k v).misses ≤ c.misses + 1
    rw [Put_misses]
    omega

theorem step64_eq_step (c : LRUCache V) (op : Op V)
    (hh : 0 ≤ c.hits ∧ c.hits < maxInt64) (hm : 0 ≤ c.misses ∧ c.misses < maxInt64) :
    step64 c op = step c op := by
  cases op with
  | get k =>
    show (Get64 c k).2 = (Get c k).2
    rw [Get64_eq_Get c k ⟨by omega, hh.2⟩ ⟨by omega, hm.2⟩]
  | put k v => rfl

/-- A run whose counters cannot reach the largest `int` is the exact run. -/
theorem run64_eq_run (c : LRUCache V) (ops : List (Op V))
    (hh : 0 ≤ c.hits ∧ c.hits + (ops.length : Int) ≤ maxInt64)
    (hm : 0 ≤ c.misses ∧ c.misses + (ops.length : Int) ≤ maxInt64) :
    run64 c ops = run c ops := by
  induction ops generalizing c with
  | nil => rfl
  | cons op ops ih =>
    simp only [List.length_cons, Nat.cast_add, Nat.cast_one] at hh hm
    have hstep : step64 c op = step c op :=
      step64_eq_step c op ⟨hh.1, by omega⟩ ⟨hm.1, by omega⟩
    have h1 := step_hits_le c op
    have h2 := step_hits_le_succ c op
    have h3 := step_misses_le c op
    have h4 := step_misses_le_succ c op
    show run64 (step64 c op) ops = run (step c op) ops
    rw [hstep]
    exact ih (step c op) ⟨by omega, by omega⟩ ⟨by omega, by omega⟩

theorem run_counters_le_length (c : LRUCache V) (ops : List (Op V)) :
    (run c ops).hits ≤ c.hits + (ops.length : Int) ∧
    (run c ops).misses ≤ c.misses + (ops.length : Int) := by
  induction ops generalizing c with
  | nil => simp [run]
  | cons op ops ih =>
    have h2 := step_hits_le_succ c op
    have h4 := step_misses_le_succ c op
    have h := ih (step c op)
    simp only [List.length_cons, Nat.cast_add, Nat.cast_one]
    show (run (step c op) ops).hits ≤ _ ∧ (run (step c op) ops).misses ≤ _
    constructor <;> omega

/-- C17 as stated fails on the code.  In the state `sampleMaxHits`, whose
`hits` is the largest `int`, a `Get` that hits leaves `hits = -2^63`, below its
value before; in `sampleMaxMisses` a `Get` that misses does the same to
`misses`. -/
theorem counters_wrap_at_max :
    sampleMaxHits.hits = 9223372036854775807 ∧
    (Get64 sampleMaxHits "A").1 = (some 1, true) ∧
    (Get64 sampleMaxHits "A").2.hits = -9223372036854775808 ∧
    ¬ (sampleMaxHits.hits ≤ (Get64 sampleMaxHits "A").2.hits) ∧
    sampleMaxMisses.misses = 9223372036854775807 ∧
    (Get64 sampleMaxMisses "Z").1 = (none, false) ∧
    (Get64 sampleMaxMisses "Z").2.misses = -9223372036854775808 ∧
    ¬ (sampleMaxMisses.misses ≤ (Get64 sampleMaxMisses "Z").2.misses) := by
  refine ⟨by decide, by decide, by decide, by decide, by decide, by decide, by decide,
    by decide⟩

/-- C17 (counters are monotonic), amended.  A new cache has `hits = 0` and
`misses = 0`.  In every state `c` whose counters are below the largest `int`,
after `Get` (computed in the 64-bit `int`) each of `hits` and `misses` is at
least its value before; in every state `d`, with no condition on its counters,
`Put` and `GetHitMissCount` leave both counters unchanged.  In particular this covers every state reached from a new
cache by fewer than `2^63 - 1` calls: there the counters are between 0 and the
number of calls made, so no call of such a run decreases or resets a counter. -/
theorem counters_monotonic_below_max (C : Int) (c d : LRUCache V) (k : String)
    (v : Option V) (ops : List (Op V)) (op : Op V)
    (hh : c.hits < maxInt64) (hm : c.misses < maxInt64)
    (hlen : (ops.length : Int) < maxInt64) :
    (NewLRUCache C : LRUCache V).hits = 0 ∧
    (NewLRUCache C : LRUCache V).misses = 0 ∧
    c.hits ≤ (Get64 c k).2.hits ∧ c.misses ≤ (Get64 c k).2.misses ∧
    (Put d k v).hits = d.hits ∧ (Put d k v).misses = d.misses ∧
    (GetHitMissCount d).2.hits = d.hits ∧ (GetHitMissCount d).2.misses = d.misses ∧
    0 ≤ (run64 (NewLRUCache C) ops).hits ∧
    (run64 (NewLRUCache C) ops).hits ≤ (ops.length : Int) ∧
    0 ≤ (run64 (NewLRUCache C) ops).misses ∧
    (run64 (NewLRUCache C) ops).misses ≤ (ops.length : Int) ∧
    (run64 (NewLRUCache C) ops).hits ≤ (step64 (run64 (NewLRUCache C) ops) op).hits ∧
    (run64 (NewLRUCache C) ops).misses ≤ (step64 (run64 (NewLRUCache C) ops) op).misses := by
  have hrun : run64 (NewLRUCache C : LRUCache V) ops = run (NewLRUCache C) ops :=
    run64_eq_run _ ops ⟨le_refl _, by show (0 : Int) + _ ≤ _; omega⟩
      ⟨le_refl _, by show (0 : Int) + _ ≤ _; omega⟩
  have hle := run_counters_le_length (NewLRUCache C : LRUCache V) ops
  have hge := run_counters_le (NewLRUCache C : LRUCache V) ops
  have hh0 : (NewLRUCache C : LRUCache V).hits = 0 := rfl
  have hm0 : (NewLRUCache C : LRUCache V).misses = 0 := rfl
  rw [hh0, hm0, zero_add] at hle
  rw [hh0, hm0] at hge
  have hstep : step64 (run (NewLRUCache C : LRUCache V) ops) op =
      step (run (NewLRUCache C) ops) op :=
    step64_eq_step _ op ⟨hge.1, by omega⟩ ⟨hge.2, by omega⟩
  rw [hrun, hstep]
  exact ⟨rfl, rfl, Get64_hits_le c k hh, Get64_misses_le c k hm, Put_hits d k v,
    Put_misses d k v, rfl, rfl, hge.1, hle.1, hge.2, hle.2,
    step_hits_le _ op, step_misses_le _ op⟩

/-- C17 amended, on `sampleAB` for `Get`, on `sampleMaxHits` for `Put` and
`GetHitMissCount`, and on the calls `Put A; Get A; Get Z` followed by `Get A`. -/
theorem counters_monotonic_below_max_witness :
    sampleAB.hits < maxInt64 ∧ sampleAB.misses < maxInt64 ∧
    (([Op.put "A" (some 1), Op.get "A", Op.get "Z"] : List (Op Nat)).length : Int) < maxInt64 ∧
    ((NewLRUCache 2 : LRUCache Nat).hits = 0 ∧
    (NewLRUCache 2 : LRUCache Nat).misses = 0 ∧
    sampleAB.hits ≤ (Get64 sampleAB "A").2.hits ∧
    sampleAB.misses ≤ (Get64 sampleAB "A").2.misses ∧
    (Put sampleMaxHits "A" (some 3)).hits = sampleMaxHits.hits ∧
    (Put sampleMaxHits "A" (some 3)).misses = sampleMaxHits.misses ∧
    (GetHitMissCount sampleMaxHits).2.hits = sampleMaxHits.hits ∧
    (GetHitMissCount sampleMaxHits).2.misses = sampleMaxHits.misses ∧
    0 ≤ (run64 (NewLRUCache 2) [Op.put "A" (some 1), Op.get "A", Op.get "Z"]).hits ∧
    (run64 (NewLRUCache 2) [Op.put "A" (some 1), Op.get "A", Op.get "Z"]).hits ≤
      (([Op.put "A" (some 1), Op.get "A", Op.get "Z"] : List (Op Nat)).length : Int) ∧
    0 ≤ (run64 (NewLRUCache 2) [Op.put "A" (some 1), Op.get "A", Op.get "Z"]).misses ∧
    (run64 (NewLRUCache 2) [Op.put "A" (some 1), Op.get "A", Op.get "Z"]).misses ≤
      (([Op.put "A" (some 1), Op.get "A", Op.get "Z"] : List (Op Nat)).length : Int) ∧
    (run64 (NewLRUCache 2) [Op.put "A" (some 1), Op.get "A", Op.get "Z"]).hits ≤
      (step64 (run64 (NewLRUCache 2) [Op.put "A" (some 1), Op.get "A", Op.get "Z"])
        (Op.get "A")).hits ∧
    (run64 (NewLRUCache 2) [Op.put "A" (some 1), Op.get "A", Op.get "Z"]).misses ≤
      (step64 (run64 (NewLRUCache 2) [Op.put "A" (some 1), Op.get "A", Op.get "Z"])
        (Op.get "A")).misses) :=
  ⟨by decide, by decide, by decide,
    counters_monotonic_below_max 2 sampleAB sampleMaxHits "A" (some 3)
      [Op.put "A" (some 1), Op.get "A", Op.get "Z"] (Op.get "A")
      (by decide) (by decide) (by decide)⟩

/-! ## Critical sections of `Get` -/

/-- Run without interruption, the sections of `Get` make up `Get`. -/
theorem Get_eq_sections (c : LRUCache V) (key : String) :
    Get c key = match GetLookup c key with
      | some element => GetPromote c element
      | none => GetMissed c := by
  unfold Get GetLookup GetPromote GetMissed
  cases mapLookup c.cache key <;> rfl

/-- C18 (atomic critical section) fails on the code.  On `sampleAB` (capacity
2, recency list `B, A`) let one caller run `Get A` and another `Put C 3`, the
whole `Put` running between the two lock sections of `Get`: the lookup finds the
node of `A`, `Put` evicts `A`, and the promotion then reports a hit with value 1
for a key that is no longer held, leaving the contents `C, B`.  Neither serial
order gives this: `Put` then `Get` makes `Get A` miss, and `Get` then `Put`
leaves the contents `C, A`.  The entry count stays within the capacity. -/
theorem Get_not_atomic :
    ∃ element, GetLookup sampleAB "A" = some element ∧
      (GetPromote (Put sampleAB "C" (some 3)) element).1 = (some 1, true) ∧
      ¬ held (Put sampleAB "C" (some 3)) "A" ∧
      entries (GetPromote (Put sampleAB "C" (some 3)) element).2 =
        [("C", some 3), ("B", some 2)] ∧
      (Get (Put sampleAB "C" (some 3)) "A").1 = (none, false) ∧
      entries (Put (Get sampleAB "A").2 "C" (some 3)) = [("C", some 3), ("A", some 1)] ∧
      (GetPromote (Put sampleAB "C" (some 3)) element).1 ≠
        (Get (Put sampleAB "C" (some 3)) "A").1 ∧
      entries (GetPromote (Put sampleAB "C" (some 3)) element).2 ≠
        entries (Put (Get sampleAB "A").2 "C" (some 3)) ∧
      (Len (GetPromote (Put sampleAB "C" (some 3)) element).2.list : Int) ≤
        (GetPromote (Put sampleAB "C" (some 3)) element).2.capacity :=
  ⟨0, by decide, by decide, by decide, by decide, by decide, by decide, by decide, by decide,
    by decide⟩

/-! ## Negative capacity -/

theorem Get_withCapacity (C : Int) (c : LRUCache V) (k : String) :
    Get (withCapacity C c) k = ((Get c k).1, withCapacity C (Get c k).2) := by
  unfold Get withCapacity
  cases mapLookup c.cache k <;> rfl

theorem evict_withCapacity (C : Int) (hC : C < 0) (c : LRUCache V) (h1 : c.capacity = 1)
    (hlen : c.list.length ≤ 1) : evict (withCapacity C c) = withCapacity C (evict c) := by
  obtain ⟨cap, cache, list, hits, misses, heap⟩ := c
  simp only at h1 hlen
  subst h1
  match list, hlen with
  | [], _ =>
    have h : ¬ ((0 : Int) ≥ 1) := by decide
    have h' : (0 : Int) ≥ C := by omega
    simp [evict, withCapacity, Len, Back, h, h']
  | [p], _ =>
    have h' : (1 : Int) ≥ C := by omega
    simp only [evict, withCapacity, Len, Back, List.length_singleton, Nat.cast_one, h',
      ge_iff_le, le_refl, if_true, List.getLast?_singleton]
    cases deref heap p <;> rfl

theorem Put_withCapacity (C : Int) (hC : C < 0) (c : LRUCache V) (h1 : c.capacity = 1)
    (hlen : c.list.length ≤ 1) (k : String) (v : Option V) :
    Put (withCapacity C c) k v = withCapacity C (Put c k v) := by
  have hC0 : (withCapacity C c).capacity ≠ 0 := by
    show C ≠ 0
    omega
  have h10 : c.capacity ≠ 0 := by omega
  cases hl : mapLookup c.cache k with
  | some e =>
    have hl' : mapLookup (withCapacity C c).cache k = some e := hl
    rw [Put_of_held hC0 hl', Put_of_held h10 hl]
    rfl
  | none =>
    have hl' : mapLookup (withCapacity C c).cache k = none := hl
    rw [Put_of_absent hC0 hl', Put_of_absent h10 hl, evict_withCapacity C hC c h1 hlen]
    rfl

theorem run_withCapacity (C : Int) (hC : C < 0) (c : LRUCache V) (hw : WF c)
    (h1 : c.capacity = 1) (ops : List (Op V)) :
    run (withCapacity C c) ops = withCapacity C (run c ops) ∧
    getResults (withCapacity C c) ops = getResults c ops := by
  induction ops generalizing c with
  | nil => exact ⟨rfl, rfl⟩
  | cons op ops ih =>
    have hlen : c.list.length ≤ 1 := by
      have := hw.bound_nonneg (by omega)
      omega
    cases op with
    | get k =>
      have hstep : (Get (withCapacity C c) k).2 = withCapacity C (Get c k).2 := by
        rw [Get_withCapacity]
      have hres : (Get (withCapacity C c) k).1 = (Get c k).1 := by
        rw [Get_withCapacity]
      have hcap : (Get c k).2.capacity = 1 := by
        have := step_capacity c (Op.get k)
        simp only [step] at this
        rw [this, h1]
      have := ih (Get c k).2 (WF_Get hw k) hcap
      constructor
      · show run (Get (withCapacity C c) k).2 ops = withCapacity C (run (Get c k).2 ops)
        rw [hstep]; exact this.1
      · show (Get (withCapacity C c) k).1 :: getResults (Get (withCapacity C c) k).2 ops =
          (Get c k).1 :: getResults (Get c k).2 ops
        rw [hstep, hres, this.2]
    | put k v =>
      have hstep := Put_withCapacity C hC c h1 hlen k v
      have hcap : (Put c k v).capacity = 1 := by
        have := step_capacity c (Op.put k v)
        simp only [step] at this
        rw [this, h1]
      have := ih (Put c k v) (WF_Put hw k v) hcap
      constructor
      · show run (Put (withCapacity C c) k v) ops = withCapacity C (run (Put c k v) ops)
        rw [hstep]; exact this.1
      · show getResults (Put (withCapacity C c) k v) ops = getResults (Put c k v) ops
        rw [hstep]; exact this.2

/-- C19 (negative capacity behaves as capacity 1). For every capacity `C < 0`
and every sequence `ops` of `Put`/`Get` calls, the state reached from
`NewLRUCache C` is the state reached from `NewLRUCache 1` with the capacity
field `C`: the `Get` calls return the same results, and the index, the recency
list, the contents and both counters are the same.  After a first `Put` the
negative-capacity cache holds 1 entry, more than its capacity. -/
theorem negative_capacity_as_one (C : Int) (hC : C < 0) (ops : List (Op V)) (k : String)
    (v : Option V) :
    run (NewLRUCache C) ops = withCapacity C (run (NewLRUCache 1) ops) ∧
    getResults (NewLRUCache C) ops = getResults (NewLRUCache 1) ops ∧
    (run (NewLRUCache C) ops).cache = (run (NewLRUCache 1 : LRUCache V) ops).cache ∧
    (run (NewLRUCache C) ops).list = (run (NewLRUCache 1 : LRUCache V) ops).list ∧
    entries (run (NewLRUCache C) ops) = entries (run (NewLRUCache 1) ops) ∧
    (run (NewLRUCache C) ops).hits = (run (NewLRUCache 1 : LRUCache V) ops).hits ∧
    (run (NewLRUCache C) ops).misses = (run (NewLRUCache 1 : LRUCache V) ops).misses ∧
    Len (Put (NewLRUCache C) k v).list = 1 ∧
    (Put (NewLRUCache C) k v).capacity < (Len (Put (NewLRUCache C) k v).list : Int) := by
  have h := run_withCapacity C hC (NewLRUCache 1 : LRUCache V) (WF_NewLRUCache 1) rfl ops
  have hnew : (NewLRUCache C : LRUCache V) = withCapacity C (NewLRUCache 1) := rfl
  have hrun : run (NewLRUCache C : LRUCache V) ops =
      withCapacity C (run (NewLRUCache 1) ops) := by
    rw [hnew]; exact h.1
  have hput : Put (NewLRUCache C : LRUCache V) k v =
      { capacity := C, cache := [(k, 0)], list := [0], hits := 0, misses := 0,
        heap := [{ Key := k, Value := v }] } := by
    have h0 : (NewLRUCache C : LRUCache V).capacity ≠ 0 := by
      show C ≠ 0
      omega
    have hl : mapLookup (NewLRUCache C : LRUCache V).cache k = none := rfl
    have hev : evict (NewLRUCache C : LRUCache V) = NewLRUCache C := by
      have hge : (0 : Int) ≥ C := by omega
      simp [evict, NewLRUCache, Len, Back, hge]
    rw [Put_of_absent h0 hl, hev]
    rfl
  refine ⟨hrun, ?_, ?_, ?_, ?_, ?_, ?_, ?_, ?_⟩
  · rw [hnew]; exact h.2
  · rw [hrun]; rfl
  · rw [hrun]; rfl
  · rw [hrun]; rfl
  · rw [hrun]; rfl
  · rw [hrun]; rfl
  · rw [hput]; rfl
  · rw [hput]
    show C < ((1 : Nat) : Int)
    omega

/-- C19 at capacity -1 on the calls `Put A; Put B; Get A; Get B`. -/
theorem negative_capacity_as_one_witness :
    (-1 : Int) < 0 ∧
    (run (NewLRUCache (-1)) [Op.put "A" (some 1), Op.put "B" (some 2), Op.get "A", Op.get "B"] =
      withCapacity (-1) (run (NewLRUCache 1)
        [Op.put "A" (some 1), Op.put "B" (some 2), Op.get "A", Op.get "B"]) ∧
    getResults (NewLRUCache (-1))
        [Op.put "A" (some 1), Op.put "B" (some 2), Op.get "A", Op.get "B"] =
      getResults (NewLRUCache 1)
        [Op.put "A" (some 1), Op.put "B" (some 2), Op.get "A", Op.get "B"] ∧
    (run (NewLRUCache (-1))
        [Op.put "A" (some 1), Op.put "B" (some 2), Op.get "A", Op.get "B"]).cache =
      (run (NewLRUCache 1 : LRUCache Nat)
        [Op.put "A" (some 1), Op.put "B" (some 2), Op.get "A", Op.get "B"]).cache ∧
    (run (NewLRUCache (-1))
        [Op.put "A" (some 1), Op.put "B" (some 2), Op.get "A", Op.get "B"]).list =
      (run (NewLRUCache 1 : LRUCache Nat)
        [Op.put "A" (some 1), Op.put "B" (some 2), Op.get "A", Op.get "B"]).list ∧
    entries (run (NewLRUCache (-1))
        [Op.put "A" (some 1), Op.put "B" (some 2), Op.get "A", Op.get "B"]) =
      entries (run (NewLRUCache 1)
        [Op.put "A" (some 1), Op.put "B" (some 2), Op.get "A", Op.get "B"]) ∧
    (run (NewLRUCache (-1))
        [Op.put "A" (some 1), Op.put "B" (some 2), Op.get "A", Op.get "B"]).hits =
      (run (NewLRUCache 1 : LRUCache Nat)
        [Op.put "A" (some 1), Op.put "B" (some 2), Op.get "A", Op.get "B"]).hits ∧
    (run (NewLRUCache (-1))
        [Op.put "A" (some 1), Op.put "B" (some 2), Op.get "A", Op.get "B"]).misses =
      (run (NewLRUCache 1 : LRUCache Nat)
        [Op.put "A" (some 1), Op.put "B" (some 2), Op.get "A", Op.get "B"]).misses ∧
    Len (Put (NewLRUCache (-1)) "A" (some 1)).list = 1 ∧
    (Put (NewLRUCache (-1)) "A" (some 1)).capacity <
      (Len (Put (NewLRUCache (-1)) "A" (some 1)).list : Int)) :=
  ⟨by decide,
    negative_capacity_as_one (-1) (by decide)
      [Op.put "A" (some 1), Op.put "B" (some 2), Op.get "A", Op.get "B"] "A" (some 1)⟩

/-! ## `Put` twice -/

theorem MoveToFront_idem (l : List Nat) (e : Nat) :
    MoveToFront (MoveToFront l e) e = MoveToFront l e := by
  by_cases h : e ∈ l
  · rw [MoveToFront_eq h]
    simp [MoveToFront]
  · have : MoveToFront l e = l := by simp [MoveToFront, h]
    rw [this, this]

theorem setElemValue_of_value {heap : List (CacheItem V)} {e : Nat} {item : CacheItem V}
    {v : Option V} (hd : deref heap e = some item) (hv : item.Value = v) :
    setElemValue heap e v = heap := by
  unfold setElemValue
  rw [hd]
  have hitem : ({ item with Value := v } : CacheItem V) = item := by
    cases item
    simp only at hv
    subst hv
    rfl
  show heap.set e { item with Value := v } = heap
  rw [hitem]
  unfold deref at hd
  apply List.ext_getElem?
  intro i
  by_cases hi : e = i
  · subst hi
    have hlt := (List.getElem?_eq_some_iff.1 hd).1
    rw [List.getElem?_set_eq_of_lt _ hlt, hd]
  · rw [List.getElem?_set_ne hi]

theorem setElemValue_idem (heap : List (CacheItem V)) (e : Nat) (v : Option V) :
    setElemValue (setElemValue heap e v) e v = setElemValue heap e v := by
  cases hd : deref heap e with
  | none =>
    have : setElemValue heap e v = heap := by simp [setElemValue, hd]
    rw [this, this]
  | some item =>
    have hd' : deref (setElemValue heap e v) e = some { item with Value := v } := by
      rw [deref_setElemValue, hd]; simp
    exact setElemValue_of_value hd' rfl

/-- C20 (Put is idempotent). For every capacity and every state (reachable or
not), applying `Put k v` twice in a row yields exactly the same state, with
the same index, recency list, memory, `hits` and `misses`, as applying it
once. -/
theorem Put_idempotent (c : LRUCache V) (k : String) (v : Option V) :
    Put (Put c k v) k v = Put c k v := by
  by_cases h0 : c.capacity = 0
  · rw [Put_of_zero h0, Put_of_zero h0]
  cases hl : mapLookup c.cache k with
  | some e =>
    have hput := Put_of_held h0 hl v
    have h0' : (Put c k v).capacity ≠ 0 := by rw [hput]; exact h0
    have hl' : mapLookup (Put c k v).cache k = some e := by rw [hput]; exact hl
    rw [Put_of_held h0' hl', hput]
    simp only [MoveToFront_idem, setElemValue_idem]
  | none =>
    have hput := Put_of_absent h0 hl v
    have h0' : (Put c k v).capacity ≠ 0 := by
      rw [hput]
      show (evict c).capacity ≠ 0
      rw [evict_capacity]; exact h0
    have hl' : mapLookup (Put c k v).cache k = some c.heap.length := by
      rw [hput]
      simp [mapLookup]
    have hmove : MoveToFront (c.heap.length :: (evict c).list) c.heap.length =
        c.heap.length :: (evict c).list := by
      simp [MoveToFront]
    have hset : setElemValue (c.heap ++ [({ Key := k, Value := v } : CacheItem V)])
        c.heap.length v = c.heap ++ [{ Key := k, Value := v }] :=
      setElemValue_of_value (deref_append_length _ _) rfl
    rw [Put_of_held h0' hl', hput]
    simp only [hmove, hset]

end LRU
